import Mathlib

/-!
Shallow embedding of the weevy workflow execution engine.

Part 1 embeds the workflow-level scheduler:
  * `Backend/WorkflowInputProcessor.py` — `_build_connection_graph`,
    `_calculate_execution_order` (Kahn's topological sort over the node
    connection graph);
  * `Backend/WorkflowExecutor.py` — the `execute` loop over the computed
    execution order, the `_is_critical_error` policy, and the terminal
    persisted status (`completed` / `failed`).

Part 2 embeds the tool orchestration layer (`Backend/ToolOrchestrator.py`):
the capability catalog, dependency inference, priority-scored topological
sort, parallel wave grouping, retry/timeout handling in
`_execute_single_tool`, sequential execution, and the top-level
`execute_tool_sequence` failure containment.

Python floats that appear in the capability catalog are modelled as exact
rationals (`ℚ`); on every value occurring in the catalog the float
computations of the source and the rational computations agree (each product
and quotient involved is far from the nearest representability boundary, and
the `int()` truncations land on the same integers).  Python `int` values are
modelled as `ℤ`.  Wall-clock execution times (`datetime.now()` differences)
are not modelled; the corresponding result fields are fixed to `0`.
-/

namespace Weevy

/-! ### Part 1: workflow level -/

/-- Keys of the `NODE_CLASSES` dict in `WorkflowExecutor.py`: node types for
which an executor class is registered.  An unknown type raises
`ValueError(f"Unknown node type: ...")` in `_execute_processed_node`. -/
def nodeClasses : List String :=
  ["brain", "input", "output", "knowledge", "tool",
   "BrainNode", "InputNode", "OutputNode", "KnowledgeBaseNode", "ToolNode"]

/-- Kind of Python exception raised by a node execution; `_is_critical_error`
distinguishes `ValueError`/`TypeError`/`KeyError` from all other exceptions. -/
inductive ErrKind where
  | valueError
  | typeError
  | keyError
  | other
deriving DecidableEq, Repr

/-- Outcome of invoking one node's executor: it either returns normally
(carrying a success flag, since a node may report failure in its result
without raising) or raises an exception of some kind. -/
inductive NodeOutcome where
  | ok (success : Bool)
  | exn (k : ErrKind)
deriving DecidableEq, Repr

/-- The fields of `ProcessedNodeInput` that the executor loop consults:
its id, its type string, and whether `validation_errors` is non-empty. -/
structure ProcessedNode where
  nodeId : String
  nodeType : String
  hasValidationErrors : Bool
deriving DecidableEq, Repr

/-- `ProcessingMode` from `WorkflowInputProcessor.py`. -/
inductive Mode where
  | development
  | production
  | testing
deriving DecidableEq, Repr

/-- `WorkflowExecutor._is_critical_error`: input/brain nodes are always
critical; otherwise only `ValueError`/`TypeError`/`KeyError` are. -/
def is_critical_error (k : ErrKind) (nodeType : String) : Bool :=
  if nodeType = "input" ∨ nodeType = "brain" then true
  else
    match k with
    | .valueError => true
    | .typeError => true
    | .keyError => true
    | .other => false

/-- Successor list of `u` in the connection graph built by
`_build_connection_graph`: the `to` endpoints of all connections leaving `u`,
in connection-list order (the dict stores, per `from` node, the list of its
`to` nodes in insertion order). -/
def adjacency (connections : List (String × String)) (u : String) : List String :=
  (connections.filter (fun c => c.1 = u)).map (fun c => c.2)

/-- Pointwise update of a function standing for the Python `in_degree` dict.
Degrees are `ℤ` because Python decrements below zero on pathological inputs. -/
def updZ (d : String → ℤ) (k : String) (v : ℤ) : String → ℤ :=
  fun x => if x = k then v else d x

/-- The `in_degree` dict of `_calculate_execution_order` after its first loop:
zero for every processed node, then one increment per connection whose `to`
endpoint is a processed node (the `from` endpoint may be any string). -/
def buildInDegree (nodes : List String) (connections : List (String × String)) :
    String → ℤ :=
  connections.foldl
    (fun d c => if c.2 ∈ nodes then updZ d c.2 (d c.2 + 1) else d)
    (fun _ => 0)

/-- One pop of Kahn's loop body: walk the successors of the popped node in
order; for each successor that is a key of `in_degree`, decrement it and
enqueue the successor at the back of the queue when the decremented value is
exactly zero. -/
def kahnStep (nodes : List String) (succs : List String)
    (st : (String → ℤ) × List String) : (String → ℤ) × List String :=
  succs.foldl
    (fun st c =>
      if c ∈ nodes then
        let d := updZ st.1 c (st.1 c - 1)
        if d c = 0 then (d, st.2 ++ [c]) else (d, st.2)
      else st)
    st

/-- The `while queue:` loop of `_calculate_execution_order`, with explicit
fuel (the Python loop terminates because every pop removes one queue entry
and each node is enqueued at most once; the fuel chosen in
`calculate_execution_order` is large enough for every input). -/
def kahnLoop (nodes : List String) (connections : List (String × String)) :
    Nat → List String → (String → ℤ) → List String → List String
  | 0, _, _, order => order
  | _ + 1, [], _, order => order
  | fuel + 1, current :: rest, d, order =>
      let st := kahnStep nodes (adjacency connections current) (d, rest)
      kahnLoop nodes connections fuel st.2 st.1 (order ++ [current])

/-- `WorkflowInputProcessor._calculate_execution_order`: Kahn's topological
sort seeded with the zero-in-degree nodes in node-list (dict insertion)
order.  Nodes left with positive in-degree (cycle members, or nodes reachable
only through them) are silently omitted from the returned order. -/
def calculate_execution_order (nodes : List String)
    (connections : List (String × String)) : List String :=
  let d := buildInDegree nodes connections
  kahnLoop nodes connections (nodes.length + connections.length)
    (nodes.filter (fun n => d n = 0)) d []

/-- Terminal observation of one workflow run: the ids whose executor returned
normally (their result was stored in `node_results`), and the status string
persisted by `_persist_status` at the end of `execute`. -/
structure RunOutcome where
  executed : List String
  status : String
deriving DecidableEq, Repr

/-- The effective outcome of `_execute_processed_node` for node `n`: an
unknown node type raises `ValueError` before the executor is invoked;
otherwise the node's own behaviour decides. -/
def effectiveOutcome (pn : ProcessedNode) (b : String → NodeOutcome)
    (n : String) : NodeOutcome :=
  if pn.nodeType ∈ nodeClasses then b n else .exn .valueError

/-- The `for node_id in processing_result.execution_order:` loop of
`WorkflowExecutor.execute`, with the accumulated `node_results` keys in
`acc`.  Skips ids without a processed node and (in production mode) nodes
with validation errors; on an exception it stops with persisted status
`failed` only when `_is_critical_error` holds, otherwise it continues; when
the loop finishes it persists status `completed`. -/
def runLoop (processed : List ProcessedNode) (b : String → NodeOutcome)
    (mode : Mode) : List String → List String → RunOutcome
  | acc, [] => ⟨acc, "completed"⟩
  | acc, n :: rest =>
      match processed.find? (fun p => p.nodeId = n) with
      | none => runLoop processed b mode acc rest
      | some pn =>
          if pn.hasValidationErrors ∧ mode = .production then
            runLoop processed b mode acc rest
          else
            match effectiveOutcome pn b n with
            | .ok _ => runLoop processed b mode (acc ++ [n]) rest
            | .exn k =>
                if is_critical_error k pn.nodeType then ⟨acc, "failed"⟩
                else runLoop processed b mode acc rest

/-- `WorkflowExecutor.execute` restricted to its scheduling content: run the
nodes in the given execution order and report the terminal persisted
status. -/
def runWorkflow (processed : List ProcessedNode) (order : List String)
    (b : String → NodeOutcome) (mode : Mode) : RunOutcome :=
  runLoop processed b mode [] order

/-- The composition performed by `execute`: the order comes from
`process_workflow`, i.e. from `_calculate_execution_order` over the processed
nodes and the connection graph. -/
def runFromGraph (processed : List ProcessedNode)
    (connections : List (String × String)) (b : String → NodeOutcome)
    (mode : Mode) : RunOutcome :=
  runWorkflow processed
    (calculate_execution_order (processed.map (fun p => p.nodeId)) connections)
    b mode

/-- Node `m` of an order would stop the run if reached: it resolves to a
processed node, is not skipped, and its effective outcome is an exception
that `_is_critical_error` classifies as critical. -/
def criticallyFails (processed : List ProcessedNode) (b : String → NodeOutcome)
    (mode : Mode) (m : String) : Bool :=
  match processed.find? (fun p => p.nodeId = m) with
  | none => false
  | some pm =>
      if pm.hasValidationErrors ∧ mode = .production then false
      else
        match effectiveOutcome pm b m with
        | .ok _ => false
        | .exn k => is_critical_error k pm.nodeType

end Weevy

namespace Weevy

/-- Behaviour used in the cycle scenario: every node would execute
successfully (none is ever reached). -/
def allOkBehaviour : String → NodeOutcome := fun _ => .ok true

/-- A two-node workflow whose connection graph is the cycle n1 → n2 → n1. -/
def cycleNodes : List ProcessedNode :=
  [⟨"n1", "brain", false⟩, ⟨"n2", "brain", false⟩]

/-- The connections of the two-node cycle. -/
def cycleConnections : List (String × String) := [("n1", "n2"), ("n2", "n1")]

end Weevy

/-- C1: for the cyclic workflow n1 → n2 → n1 the code does not raise any
cycle error: `_calculate_execution_order` returns the empty order (both
nodes keep in-degree 1 and are silently dropped), the executor's loop runs
zero nodes, and `execute` persists terminal status `completed` — not a
`CycleError` and not a failure.  This contradicts the claim that a cyclic
graph never reports `completed`; the spec itself mandates a distinct
`CycleError`, so the code, which has no cycle detection at all, is the
defective side. -/
theorem C1_cycle_persists_completed :
    Weevy.calculate_execution_order ["n1", "n2"] Weevy.cycleConnections = [] ∧
    Weevy.runFromGraph Weevy.cycleNodes Weevy.cycleConnections
      Weevy.allOkBehaviour .production = ⟨[], "completed"⟩ := by
  constructor <;> rfl

namespace Weevy

/-- Behaviour for the C2 counterexample: node n1 raises a generic (non
ValueError/TypeError/KeyError) exception, node n2 executes successfully. -/
def c2Behaviour : String → NodeOutcome :=
  fun n => if n = "n1" then .exn .other else .ok true

/-- Two output-type nodes executed in the order [n1, n2]. -/
def c2Nodes : List ProcessedNode :=
  [⟨"n1", "output", false⟩, ⟨"n2", "output", false⟩]

end Weevy

/-- C2 counterexample: a workflow whose first node (an output node) fails
with a generic exception.  `_is_critical_error` returns False (the node type
is not input/brain and the error is not a ValueError/TypeError/KeyError), so
`execute` continues: the later node n2 is still executed and the run persists
status `completed`, refuting the claim that any node failure stops all
further scheduling and persists `failed` regardless of node type and error
kind. -/
theorem C2_noncritical_failure_continues :
    Weevy.runWorkflow Weevy.c2Nodes ["n1", "n2"] Weevy.c2Behaviour .production
      = ⟨["n2"], "completed"⟩ := by
  rfl

namespace Weevy

/-- If every node of `pre` is either skipped or survives its outcome, and
node `n` then raises a critical exception, the executor loop ends with status
`failed` and only nodes of `acc ++ pre` can be in the executed list. -/
theorem runLoop_critical_stop (processed : List ProcessedNode)
    (b : String → NodeOutcome) (mode : Mode) (post : List String) (n : String)
    (pn : ProcessedNode) (k : ErrKind)
    (hfind : processed.find? (fun p => p.nodeId = n) = some pn)
    (hskip : ¬(pn.hasValidationErrors = true ∧ mode = .production))
    (houtcome : effectiveOutcome pn b n = .exn k)
    (hcrit : is_critical_error k pn.nodeType = true) :
    ∀ (pre acc : List String),
      (∀ m ∈ pre, criticallyFails processed b mode m = false) →
      (runLoop processed b mode acc (pre ++ n :: post)).status = "failed" ∧
      ∀ m ∈ (runLoop processed b mode acc (pre ++ n :: post)).executed,
        m ∈ acc ∨ m ∈ pre := by
  intro pre
  induction pre with
  | nil =>
      intro acc _
      simp only [List.nil_append, runLoop, hfind, houtcome]
      rw [if_neg hskip, hcrit]
      simp
  | cons p pre ih =>
      intro acc hpre
      have hp : criticallyFails processed b mode p = false := hpre p (by simp)
      have hpre' : ∀ m ∈ pre, criticallyFails processed b mode m = false :=
        fun m hm => hpre m (by simp [hm])
      simp only [List.cons_append, runLoop]
      cases hfp : processed.find? (fun q => q.nodeId = p) with
      | none =>
          obtain ⟨h1, h2⟩ := ih acc hpre'
          exact ⟨h1, fun m hm => by
            rcases h2 m hm with h | h
            · exact Or.inl h
            · exact Or.inr (by simp [h])⟩
      | some pp =>
          dsimp only
          by_cases hsk : pp.hasValidationErrors = true ∧ mode = .production
          · rw [if_pos hsk]
            obtain ⟨h1, h2⟩ := ih acc hpre'
            exact ⟨h1, fun m hm => by
              rcases h2 m hm with h | h
              · exact Or.inl h
              · exact Or.inr (by simp [h])⟩
          · rw [if_neg hsk]
            cases ho : effectiveOutcome pp b p with
            | ok s =>
                obtain ⟨h1, h2⟩ := ih (acc ++ [p]) hpre'
                refine ⟨h1, fun m hm => ?_⟩
                rcases h2 m hm with h | h
                · rcases List.mem_append.1 h with h | h
                  · exact Or.inl h
                  · exact Or.inr (by simp_all)
                · exact Or.inr (by simp [h])
            | exn k2 =>
                dsimp only
                have hnc : is_critical_error k2 pp.nodeType = false := by
                  simp only [criticallyFails, hfp, ho] at hp
                  rw [if_neg hsk] at hp
                  exact hp
                rw [hnc]
                simp only [Bool.false_eq_true, if_false]
                obtain ⟨h1, h2⟩ := ih acc hpre'
                exact ⟨h1, fun m hm => by
                  rcases h2 m hm with h | h
                  · exact Or.inl h
                  · exact Or.inr (by simp [h])⟩

/-- A node whose effective outcome is a non-critical exception contributes
nothing: the loop behaves exactly as if the node were absent from the
order. -/
theorem runLoop_noncritical_skip (processed : List ProcessedNode)
    (b : String → NodeOutcome) (mode : Mode) (post : List String) (n : String)
    (pn : ProcessedNode) (k : ErrKind)
    (hfind : processed.find? (fun p => p.nodeId = n) = some pn)
    (hskip : ¬(pn.hasValidationErrors = true ∧ mode = .production))
    (houtcome : effectiveOutcome pn b n = .exn k)
    (hcrit : is_critical_error k pn.nodeType = false) :
    ∀ (pre acc : List String),
      runLoop processed b mode acc (pre ++ n :: post)
        = runLoop processed b mode acc (pre ++ post) := by
  intro pre
  induction pre with
  | nil =>
      intro acc
      simp only [List.nil_append, runLoop, hfind, houtcome]
      rw [if_neg hskip, hcrit]
      simp
  | cons p pre ih =>
      intro acc
      simp only [List.cons_append, runLoop]
      cases hfp : processed.find? (fun q => q.nodeId = p) with
      | none => exact ih acc
      | some pp =>
          dsimp only
          by_cases hsk : pp.hasValidationErrors = true ∧ mode = .production
          · simp only [if_pos hsk]
            exact ih acc
          · simp only [if_neg hsk]
            cases ho : effectiveOutcome pp b p with
            | ok s => exact ih (acc ++ [p])
            | exn k2 =>
                dsimp only
                by_cases hc : is_critical_error k2 pp.nodeType = true
                · simp only [hc, if_true]
                · simp only [Bool.not_eq_true] at hc
                  simp only [hc, Bool.false_eq_true, if_false]
                  exact ih acc

end Weevy

/-- C2 as amended: a node failure stops the workflow and persists status
`failed` only when `_is_critical_error` classifies it as critical — the
failing node's type is `input`/`brain`, or the exception is a
`ValueError`/`TypeError`/`KeyError`.  In that case (if no earlier node
already failed critically) the run ends `failed` and no node after the
failing one is executed.  For every other exception the executor continues
exactly as if the failing node were not in the order (so the run is not
stopped by the failure, contrary to the original claim's "regardless of the
failing node's type or the kind of error"). -/
theorem C2_amended_failure_policy (processed : List Weevy.ProcessedNode)
    (b : String → Weevy.NodeOutcome) (mode : Weevy.Mode)
    (pre post : List String) (n : String) (pn : Weevy.ProcessedNode)
    (k : Weevy.ErrKind)
    (hfind : processed.find? (fun p => p.nodeId = n) = some pn)
    (hskip : ¬(pn.hasValidationErrors = true ∧ mode = .production))
    (houtcome : Weevy.effectiveOutcome pn b n = .exn k) :
    (Weevy.is_critical_error k pn.nodeType = true →
      (∀ m ∈ pre, Weevy.criticallyFails processed b mode m = false) →
      (Weevy.runWorkflow processed (pre ++ n :: post) b mode).status = "failed" ∧
      ∀ m ∈ (Weevy.runWorkflow processed (pre ++ n :: post) b mode).executed,
        m ∈ pre) ∧
    (Weevy.is_critical_error k pn.nodeType = false →
      Weevy.runWorkflow processed (pre ++ n :: post) b mode
        = Weevy.runWorkflow processed (pre ++ post) b mode) := by
  constructor
  · intro hcrit hpre
    obtain ⟨h1, h2⟩ := Weevy.runLoop_critical_stop processed b mode post n pn k
      hfind hskip houtcome hcrit pre [] hpre
    refine ⟨h1, fun m hm => ?_⟩
    rcases h2 m hm with h | h
    · simp at h
    · exact h
  · intro hcrit
    exact Weevy.runLoop_noncritical_skip processed b mode post n pn k
      hfind hskip houtcome hcrit pre []

/-- Witness for the amended C2: an input-type node that raises a generic
exception is critical (by node type), the run persists `failed`, and the
downstream node is never executed. -/
theorem C2_amended_failure_policy_witness :
    (Weevy.runWorkflow [⟨"n1", "input", false⟩, ⟨"n2", "output", false⟩]
      ([] ++ "n1" :: ["n2"]) Weevy.c2Behaviour .production).status = "failed" ∧
    ∀ m ∈ (Weevy.runWorkflow [⟨"n1", "input", false⟩, ⟨"n2", "output", false⟩]
      ([] ++ "n1" :: ["n2"]) Weevy.c2Behaviour .production).executed,
      m ∈ ([] : List String) :=
  (C2_amended_failure_policy
      [⟨"n1", "input", false⟩, ⟨"n2", "output", false⟩]
      Weevy.c2Behaviour .production [] ["n2"] "n1" ⟨"n1", "input", false⟩
      .other (by rfl) (by simp) (by rfl)).1 (by rfl) (by simp)

namespace Weevy

/-! ### Kahn's sort safety: every scheduled node follows all its scheduled
predecessors.  The invariant machinery below tracks the executor-visible
content of `_calculate_execution_order`'s loop state. -/

/-- Topological safety of an order: whenever the target of a connection whose
source is a known node occurs in the order, the source occurs strictly
earlier. -/
def Pord (connections : List (String × String)) (nodes : List String)
    (order : List String) : Prop :=
  ∀ e ∈ connections, e.1 ∈ nodes →
    ∀ l1 l2, order = l1 ++ e.2 :: l2 → e.1 ∈ l1

/-- Splitting a filtered length along a second predicate. -/
theorem length_filter_split {α : Type} (p q : α → Bool) :
    ∀ l : List α,
      (l.filter p).length
        = (l.filter (fun a => p a && q a)).length
          + (l.filter (fun a => p a && !q a)).length := by
  intro l
  induction l with
  | nil => rfl
  | cons a l ih =>
      by_cases hp : p a = true
      · by_cases hq : q a = true
        · simp [List.filter_cons, hp, hq, ih]
          omega
        · simp only [Bool.not_eq_true] at hq
          simp [List.filter_cons, hp, hq, ih]
          omega
      · simp only [Bool.not_eq_true] at hp
        simp [List.filter_cons, hp, ih]

/-- Filtered length is monotone along predicate implication. -/
theorem length_filter_mono {α : Type} (p q : α → Bool)
    (h : ∀ a, p a = true → q a = true) :
    ∀ l : List α, (l.filter p).length ≤ (l.filter q).length := by
  intro l
  induction l with
  | nil => exact Nat.le_refl 0
  | cons a l ih =>
      by_cases hp : p a = true
      · simp [List.filter_cons, hp, h a hp]
        omega
      · simp only [Bool.not_eq_true] at hp
        by_cases hq : q a = true
        · simp [List.filter_cons, hp, hq]
          omega
        · simp only [Bool.not_eq_true] at hq
          simp [List.filter_cons, hp, hq, ih]

/-- Multiplicity of `v` among the successors of `u`: the number of
connections from `u` to `v`. -/
theorem adjacency_count (u v : String) :
    ∀ connections : List (String × String),
      (adjacency connections u).count v
        = (connections.filter (fun e => e.1 = u ∧ e.2 = v)).length := by
  intro connections
  induction connections with
  | nil => rfl
  | cons e rest ih =>
      by_cases h1 : e.1 = u
      · by_cases h2 : e.2 = v
        · simp [adjacency, List.filter_cons, h1, h2, List.count_cons] at ih ⊢
          omega
        · simp [adjacency, List.filter_cons, h1, h2, List.count_cons] at ih ⊢
          exact ih
      · simp [adjacency, List.filter_cons, h1] at ih ⊢
        exact ih

/-- Value of the initial in-degree map: the number of connections into `v`,
for `v` a processed node, and zero otherwise. -/
theorem buildInDegree_spec (nodes : List String) :
    ∀ (C : List (String × String)) (base : String → ℤ) (v : String),
      (C.foldl
        (fun d c => if c.2 ∈ nodes then updZ d c.2 (d c.2 + 1) else d) base) v
        = base v
          + if v ∈ nodes then ((C.filter (fun e => e.2 = v)).length : ℤ) else 0 := by
  intro C
  induction C with
  | nil =>
      intro base v
      by_cases h : v ∈ nodes <;> simp [h]
  | cons c C ih =>
      intro base v
      by_cases hc : c.2 ∈ nodes
      · simp only [List.foldl_cons, if_pos hc, ih]
        by_cases hv : v = c.2
        · subst hv
          simp [updZ, List.filter_cons, hc]
          omega
        · have : updZ base c.2 (base c.2 + 1) v = base v := by
            simp [updZ, hv]
          rw [this]
          by_cases hvn : v ∈ nodes
          · have hne : ¬ (c.2 = v) := fun h => hv h.symm
            simp [List.filter_cons, hvn, hne]
          · simp [hvn]
      · simp only [List.foldl_cons, if_neg hc, ih]
        by_cases hvn : v ∈ nodes
        · have hne : ¬ (c.2 = v) := fun h => hc (h ▸ hvn)
          simp [List.filter_cons, hvn, hne]
        · simp [hvn]

/-- Decomposing `A ++ [a] = l1 ++ x :: l2`: the distinguished element `x`
either is the appended `a` (with `l1 = A`) or lies inside `A`. -/
theorem append_singleton_split {α : Type} (A l1 l2 : List α) (a x : α)
    (h : A ++ [a] = l1 ++ x :: l2) :
    (l1 = A ∧ x = a ∧ l2 = []) ∨ ∃ l2', A = l1 ++ x :: l2' := by
  rcases List.append_eq_append_iff.1 h with ⟨c, hc1, hc2⟩ | ⟨c, hc1, hc2⟩
  · cases c with
    | nil =>
        rw [List.append_nil] at hc1
        rw [List.nil_append] at hc2
        injection hc2 with h1 h2
        exact Or.inl ⟨hc1, h1.symm, h2.symm⟩
    | cons c0 c2 =>
        rw [List.cons_append] at hc2
        injection hc2 with h1 h2
        exact absurd h2.symm (List.append_ne_nil_of_right_ne_nil c2 (by simp))
  · cases c with
    | nil =>
        rw [List.append_nil] at hc1
        rw [List.nil_append] at hc2
        injection hc2 with h1 h2
        exact Or.inl ⟨hc1.symm, h1, h2⟩
    | cons c0 c2 =>
        rw [List.cons_append] at hc2
        injection hc2 with h1 h2
        exact Or.inr ⟨c2, by rw [hc1, h1]⟩

end Weevy

namespace Weevy

/-- Effect of one full pop body (`kahnStep`) on the in-degree map and the
queue: every key's degree drops by the number of occurrences among the
processed successors, and the queue is extended by exactly the keys whose
degree reached zero — each of which had positive degree equal to its
occurrence count. -/
theorem kahnStep_spec (nodes : List String) :
    ∀ (cs : List String) (d : String → ℤ) (qs : List String),
      (∀ v ∈ nodes, ((cs.count v : ℕ) : ℤ) ≤ d v) →
      (∀ v ∈ qs, d v = 0) →
      (∀ v, (kahnStep nodes cs (d, qs)).1 v
          = if v ∈ nodes then d v - ((cs.count v : ℕ) : ℤ) else d v) ∧
      ∃ extra, (kahnStep nodes cs (d, qs)).2 = qs ++ extra ∧ extra.Nodup ∧
        ∀ w ∈ extra, w ∈ nodes ∧ w ∈ cs ∧ d w = ((cs.count w : ℕ) : ℤ) ∧
          1 ≤ d w ∧ w ∉ qs := by
  intro cs
  induction cs with
  | nil =>
      intro d qs _ _
      refine ⟨fun v => ?_, [], by simp [kahnStep], List.nodup_nil, by simp⟩
      by_cases hv : v ∈ nodes <;> simp [kahnStep, hv]
  | cons c cs ih =>
      intro d qs h1 h2
      by_cases hc : c ∈ nodes
      · have hupdc : updZ d c (d c - 1) c = d c - 1 := by simp [updZ]
        have hupdv : ∀ v, v ≠ c → updZ d c (d c - 1) v = d v := by
          intro v hv
          simp [updZ, hv]
        have hcount_self : (c :: cs).count c = cs.count c + 1 :=
          List.count_cons_self c cs
        have hcount_ne : ∀ v, v ≠ c → (c :: cs).count v = cs.count v :=
          fun v hv => List.count_cons_of_ne hv cs
        have hcpos : (1 : ℤ) ≤ d c := by
          have := h1 c hc
          rw [hcount_self] at this
          push_cast at this
          omega
        have hcq : c ∉ qs := by
          intro hin
          have := h2 c hin
          omega
        by_cases hz : d c - 1 = 0
        · -- the decrement reaches zero: c is enqueued
          have hred : kahnStep nodes (c :: cs) (d, qs)
              = kahnStep nodes cs (updZ d c (d c - 1), qs ++ [c]) := by
            simp only [kahnStep, List.foldl_cons]
            simp [hc, updZ, hz]
          have hccount : cs.count c = 0 := by
            have := h1 c hc
            rw [hcount_self] at this
            push_cast at this
            omega
          have h1a : ∀ v ∈ nodes, ((cs.count v : ℕ) : ℤ) ≤ updZ d c (d c - 1) v := by
            intro v hv
            by_cases hvc : v = c
            · subst hvc
              rw [hupdc, hz, hccount]
              simp
            · rw [hupdv v hvc]
              have := h1 v hv
              rw [hcount_ne v hvc] at this
              exact this
          have h2a : ∀ v ∈ qs ++ [c], updZ d c (d c - 1) v = 0 := by
            intro v hv
            rcases List.mem_append.1 hv with hv | hv
            · have hvz := h2 v hv
              have hvc : v ≠ c := by
                intro h
                subst h
                omega
              rw [hupdv v hvc]
              exact hvz
            · have hvc : v = c := by simpa using hv
              subst hvc
              rw [hupdc]
              exact hz
          obtain ⟨ha, extra, hq, hnd, hw⟩ := ih (updZ d c (d c - 1)) (qs ++ [c]) h1a h2a
          refine ⟨fun v => ?_, c :: extra, ?_, ?_, ?_⟩
          · rw [hred, ha v]
            by_cases hvn : v ∈ nodes
            · rw [if_pos hvn, if_pos hvn]
              by_cases hvc : v = c
              · subst hvc
                rw [hupdc, hcount_self]
                push_cast
                omega
              · rw [hupdv v hvc, hcount_ne v hvc]
            · rw [if_neg hvn, if_neg hvn]
              exact hupdv v (fun h => hvn (h ▸ hc))
          · rw [hred, hq, List.append_assoc]
            rfl
          · refine List.nodup_cons.2 ⟨?_, hnd⟩
            intro hmem
            exact (hw c hmem).2.2.2.2 (List.mem_append.2 (Or.inr (by simp)))
          · intro w hwmem
            rcases List.mem_cons.1 hwmem with hwc | hwm
            · subst hwc
              refine ⟨hc, by simp, ?_, hcpos, hcq⟩
              rw [hcount_self, hccount]
              push_cast
              omega
            · obtain ⟨hwn, hwcs, hwd, hwpos, hwq⟩ := hw w hwm
              have hwc : w ≠ c := by
                intro h
                subst h
                exact hwq (List.mem_append.2 (Or.inr (by simp)))
              rw [hupdv w hwc] at hwd hwpos
              refine ⟨hwn, by simp [hwcs], ?_, hwpos, ?_⟩
              · rw [hcount_ne w hwc]
                exact hwd
              · intro hin
                exact hwq (List.mem_append.2 (Or.inl hin))
        · -- the decrement does not reach zero: queue unchanged
          have hred : kahnStep nodes (c :: cs) (d, qs)
              = kahnStep nodes cs (updZ d c (d c - 1), qs) := by
            simp only [kahnStep, List.foldl_cons]
            simp [hc, updZ, hz]
          have h1a : ∀ v ∈ nodes, ((cs.count v : ℕ) : ℤ) ≤ updZ d c (d c - 1) v := by
            intro v hv
            by_cases hvc : v = c
            · subst hvc
              rw [hupdc]
              have := h1 _ hc
              rw [hcount_self] at this
              push_cast at this ⊢
              omega
            · rw [hupdv v hvc]
              have := h1 v hv
              rw [hcount_ne v hvc] at this
              exact this
          have h2a : ∀ v ∈ qs, updZ d c (d c - 1) v = 0 := by
            intro v hv
            have hvc : v ≠ c := by
              intro h
              subst h
              exact hcq hv
            rw [hupdv v hvc]
            exact h2 v hv
          obtain ⟨ha, extra, hq, hnd, hw⟩ := ih (updZ d c (d c - 1)) qs h1a h2a
          refine ⟨fun v => ?_, extra, by rw [hred, hq], hnd, ?_⟩
          · rw [hred, ha v]
            by_cases hvn : v ∈ nodes
            · rw [if_pos hvn, if_pos hvn]
              by_cases hvc : v = c
              · subst hvc
                rw [hupdc, hcount_self]
                push_cast
                omega
              · rw [hupdv v hvc, hcount_ne v hvc]
            · rw [if_neg hvn, if_neg hvn]
              exact hupdv v (fun h => hvn (h ▸ hc))
          · intro w hwm
            obtain ⟨hwn, hwcs, hwd, hwpos, hwq⟩ := hw w hwm
            by_cases hwc : w = c
            · subst hwc
              rw [hupdc] at hwd hwpos
              refine ⟨hwn, by simp, ?_, by omega, hwq⟩
              rw [hcount_self]
              push_cast
              omega
            · rw [hupdv w hwc] at hwd hwpos
              refine ⟨hwn, by simp [hwcs], ?_, hwpos, hwq⟩
              rw [hcount_ne w hwc]
              exact hwd
      · -- successor not a known node: no effect
        have hred : kahnStep nodes (c :: cs) (d, qs) = kahnStep nodes cs (d, qs) := by
          simp only [kahnStep, List.foldl_cons]
          simp [hc]
        have hcount_nodes : ∀ v, v ∈ nodes → (c :: cs).count v = cs.count v := by
          intro v hv
          refine List.count_cons_of_ne ?_ cs
          intro h
          exact hc (h ▸ hv)
        have h1a : ∀ v ∈ nodes, ((cs.count v : ℕ) : ℤ) ≤ d v := by
          intro v hv
          have := h1 v hv
          rw [hcount_nodes v hv] at this
          exact this
        obtain ⟨ha, extra, hq, hnd, hw⟩ := ih d qs h1a h2
        refine ⟨fun v => ?_, extra, by rw [hred, hq], hnd, ?_⟩
        · rw [hred, ha v]
          by_cases hvn : v ∈ nodes
          · rw [if_pos hvn, if_pos hvn, hcount_nodes v hvn]
          · rw [if_neg hvn, if_neg hvn]
        · intro w hwm
          obtain ⟨hwn, hwcs, hwd, hwpos, hwq⟩ := hw w hwm
          refine ⟨hwn, by simp [hwcs], ?_, hwpos, hwq⟩
          rw [hcount_nodes w hwn]
          exact hwd

end Weevy

namespace Weevy

/-- Loop invariant of `_calculate_execution_order`: the emitted order and the
pending queue are disjoint duplicate-free lists of processed nodes; the
in-degree map counts, per node, the connections into it whose source has not
been emitted; queued nodes have degree zero; every emitted node has all its
connection sources already emitted; and the emitted order is topologically
safe so far. -/
structure KahnInv (nodes : List String) (connections : List (String × String))
    (queue order : List String) (d : String → ℤ) : Prop where
  ord_sub : ∀ x ∈ order, x ∈ nodes
  q_sub : ∀ x ∈ queue, x ∈ nodes
  ord_nodup : order.Nodup
  q_nodup : queue.Nodup
  disj : ∀ x ∈ queue, x ∉ order
  deg : ∀ v ∈ nodes,
    d v = (((connections.filter (fun e => e.2 = v ∧ e.1 ∉ order)).length : ℕ) : ℤ)
  ord_closed : ∀ x ∈ order, ∀ e ∈ connections, e.2 = x → e.1 ∈ order
  q_zero : ∀ x ∈ queue, d x = 0
  safe : Pord connections nodes order

/-- One iteration of the Kahn loop preserves the invariant. -/
theorem kahnInv_step (nodes : List String) (connections : List (String × String))
    (q0 : String) (qs order : List String) (d : String → ℤ)
    (inv : KahnInv nodes connections (q0 :: qs) order d) :
    KahnInv nodes connections
      (kahnStep nodes (adjacency connections q0) (d, qs)).2
      (order ++ [q0])
      (kahnStep nodes (adjacency connections q0) (d, qs)).1 := by
  have hq0n : q0 ∈ nodes := inv.q_sub q0 (by simp)
  have hq0z : d q0 = 0 := inv.q_zero q0 (by simp)
  have hq0ord : q0 ∉ order := inv.disj q0 (by simp)
  have hq0qs : q0 ∉ qs := (List.nodup_cons.1 inv.q_nodup).1
  have hqsnd : qs.Nodup := (List.nodup_cons.1 inv.q_nodup).2
  -- every connection into q0 has its source already emitted
  have hpredq0 : ∀ e ∈ connections, e.2 = q0 → e.1 ∈ order := by
    intro e he h2
    by_contra h1
    have hlen : ((connections.filter
        (fun e => e.2 = q0 ∧ e.1 ∉ order)).length : ℤ) = 0 := by
      rw [← inv.deg q0 hq0n]
      exact_mod_cast hq0z
    have hnil : connections.filter (fun e => e.2 = q0 ∧ e.1 ∉ order) = [] := by
      have : (connections.filter
          (fun e => e.2 = q0 ∧ e.1 ∉ order)).length = 0 := by exact_mod_cast hlen
      exact List.length_eq_zero.1 this
    have hmem : e ∈ connections.filter (fun e => e.2 = q0 ∧ e.1 ∉ order) := by
      rw [List.mem_filter]
      exact ⟨he, by simp [h2, h1]⟩
    rw [hnil] at hmem
    exact List.not_mem_nil e hmem
  -- every emitted node has in-degree zero
  have hord0 : ∀ x ∈ order, d x = 0 := by
    intro x hx
    rw [inv.deg x (inv.ord_sub x hx)]
    have hnil : connections.filter (fun e => e.2 = x ∧ e.1 ∉ order) = [] := by
      rw [List.filter_eq_nil_iff]
      intro e he
      simp only [decide_eq_true_eq, not_and, not_not]
      intro h2
      exact inv.ord_closed x hx e he h2
    rw [hnil]
    rfl
  -- occurrence counts among q0's successors are bounded by the degrees
  have hcnt : ∀ v ∈ nodes,
      (((adjacency connections q0).count v : ℕ) : ℤ) ≤ d v := by
    intro v hv
    rw [adjacency_count, inv.deg v hv]
    have := length_filter_mono
      (fun e => decide (e.1 = q0 ∧ e.2 = v))
      (fun e => decide (e.2 = v ∧ e.1 ∉ order))
      (by
        intro a ha
        simp only [decide_eq_true_eq] at ha ⊢
        exact ⟨ha.2, ha.1 ▸ hq0ord⟩)
      connections
    exact_mod_cast this
  have h2 : ∀ v ∈ qs, d v = 0 := fun v hv => inv.q_zero v (by simp [hv])
  obtain ⟨ha, extra, hq, hnd, hw⟩ :=
    kahnStep_spec nodes (adjacency connections q0) d qs hcnt h2
  have hcount0 : ∀ v ∈ qs, (adjacency connections q0).count v = 0 := by
    intro v hv
    have h1 := hcnt v (inv.q_sub v (by simp [hv]))
    have h0 := h2 v hv
    omega
  refine
    { ord_sub := ?_, q_sub := ?_, ord_nodup := ?_, q_nodup := ?_, disj := ?_,
      deg := ?_, ord_closed := ?_, q_zero := ?_, safe := ?_ }
  · intro x hx
    rcases List.mem_append.1 hx with hx | hx
    · exact inv.ord_sub x hx
    · have : x = q0 := by simpa using hx
      exact this ▸ hq0n
  · intro x hx
    rw [hq] at hx
    rcases List.mem_append.1 hx with hx | hx
    · exact inv.q_sub x (by simp [hx])
    · exact (hw x hx).1
  · rw [List.nodup_append]
    refine ⟨inv.ord_nodup, List.nodup_singleton q0, ?_⟩
    intro a ha hb
    have : a = q0 := by simpa using hb
    exact hq0ord (this ▸ ha)
  · rw [hq, List.nodup_append]
    exact ⟨hqsnd, hnd, fun a ha hb => (hw a hb).2.2.2.2 ha⟩
  · intro x hx
    rw [hq] at hx
    intro hmem
    rcases List.mem_append.1 hmem with hord | hsing
    · rcases List.mem_append.1 hx with hx | hx
      · exact inv.disj x (by simp [hx]) hord
      · have h1 := (hw x hx).2.2.2.1
        have h0 := hord0 x hord
        omega
    · have hxq0 : x = q0 := by simpa using hsing
      subst hxq0
      rcases List.mem_append.1 hx with hx | hx
      · exact hq0qs hx
      · have h1 := (hw _ hx).2.2.2.1
        omega
  · intro v hv
    rw [ha v, if_pos hv, inv.deg v hv, adjacency_count]
    have hsplit := length_filter_split
      (fun e => decide (e.2 = v ∧ e.1 ∉ order))
      (fun e => decide ((e : String × String).1 = q0)) connections
    have hA : connections.filter
        (fun a => decide (a.2 = v ∧ a.1 ∉ order) && decide (a.1 = q0))
        = connections.filter (fun a => decide (a.1 = q0 ∧ a.2 = v)) := by
      refine List.filter_congr ?_
      intro a _
      by_cases h1 : a.2 = v <;> by_cases hEq : a.1 = q0 <;>
        simp [h1, hEq, hq0ord]
    have hB : connections.filter
        (fun a => decide (a.2 = v ∧ a.1 ∉ order) && !decide (a.1 = q0))
        = connections.filter (fun a => decide (a.2 = v ∧ a.1 ∉ order ++ [q0])) := by
      refine List.filter_congr ?_
      intro a _
      by_cases h1 : a.2 = v <;> by_cases hEq : a.1 = q0 <;>
        by_cases h3 : a.1 ∈ order <;> simp [h1, hEq, h3, hq0ord]
    rw [hA, hB] at hsplit
    rw [hsplit]
    push_cast
    ring
  · intro x hx e he h2
    rcases List.mem_append.1 hx with hx | hx
    · exact List.mem_append.2 (Or.inl (inv.ord_closed x hx e he h2))
    · have hxq0 : x = q0 := by simpa using hx
      exact List.mem_append.2 (Or.inl (hpredq0 e he (hxq0 ▸ h2)))
  · intro x hx
    rw [hq] at hx
    rcases List.mem_append.1 hx with hx | hx
    · rw [ha x, if_pos (inv.q_sub x (by simp [hx])), hcount0 x hx, h2 x hx]
      rfl
    · obtain ⟨hxn, _, hxd, _, _⟩ := hw x hx
      rw [ha x, if_pos hxn, hxd]
      ring
  · intro e he he1 l1 l2 hsplit
    rcases append_singleton_split order l1 l2 q0 e.2 hsplit with ⟨hl1, hx, _⟩ | ⟨l2a, hsp⟩
    · exact hl1 ▸ hpredq0 e he hx
    · exact inv.safe e he he1 l1 l2a hsp

/-- Running the Kahn loop from any invariant-satisfying state produces a
topologically safe order, whatever the fuel. -/
theorem kahnLoop_safe (nodes : List String) (connections : List (String × String)) :
    ∀ (fuel : Nat) (queue : List String) (d : String → ℤ) (order : List String),
      KahnInv nodes connections queue order d →
      Pord connections nodes (kahnLoop nodes connections fuel queue d order) := by
  intro fuel
  induction fuel with
  | zero => exact fun queue d order inv => inv.safe
  | succ fuel ih =>
      intro queue d order inv
      cases queue with
      | nil => exact inv.safe
      | cons q0 qs =>
          simp only [kahnLoop]
          exact ih _ _ _ (kahnInv_step nodes connections q0 qs order d inv)

/-- The invariant holds at the seeding of `_calculate_execution_order`. -/
theorem kahnInv_init (nodes : List String) (connections : List (String × String))
    (hnd : nodes.Nodup) :
    KahnInv nodes connections
      (nodes.filter (fun n => buildInDegree nodes connections n = 0))
      [] (buildInDegree nodes connections) := by
  refine
    { ord_sub := by simp, q_sub := ?_, ord_nodup := List.nodup_nil,
      q_nodup := hnd.filter _, disj := by simp, deg := ?_,
      ord_closed := by simp, q_zero := ?_, safe := ?_ }
  · exact fun x hx => List.mem_of_mem_filter hx
  · intro v hv
    rw [buildInDegree, buildInDegree_spec nodes connections (fun _ => 0) v, if_pos hv]
    have : connections.filter (fun e => e.2 = v ∧ e.1 ∉ ([] : List String))
        = connections.filter (fun e => e.2 = v) := by
      refine List.filter_congr ?_
      intro a _
      simp
    rw [this]
    ring
  · intro x hx
    have := List.of_mem_filter hx
    simpa using this
  · intro e _ _ l1 l2 h
    exact absurd h (by simp)

end Weevy

/-- C3: for every connection (u, v) between processed nodes of a workflow,
whenever v appears in the execution order computed by
`_calculate_execution_order` (the order `WorkflowExecutor.execute` then
follows), u appears strictly earlier in that order — so u is scheduled, and
hence executed, strictly before v.  (Node ids are distinct, as they are dict
keys in the source.) -/
theorem C3_edge_source_precedes_target (nodes : List String)
    (connections : List (String × String)) (u v : String)
    (hnd : nodes.Nodup) (he : (u, v) ∈ connections) (hu : u ∈ nodes)
    (hv : v ∈ Weevy.calculate_execution_order nodes connections) :
    ∃ l1 l2, Weevy.calculate_execution_order nodes connections = l1 ++ v :: l2
      ∧ u ∈ l1 := by
  obtain ⟨l1, l2, hsplit⟩ := List.append_of_mem hv
  refine ⟨l1, l2, hsplit, ?_⟩
  have hp := Weevy.kahnLoop_safe nodes connections
    (nodes.length + connections.length)
    (nodes.filter (fun n => Weevy.buildInDegree nodes connections n = 0))
    (Weevy.buildInDegree nodes connections) []
    (Weevy.kahnInv_init nodes connections hnd)
  exact hp (u, v) he hu l1 l2 hsplit

/-- Witness for C3 at the two-node chain a → b: the computed order is
[a, b] and a indeed precedes b. -/
theorem C3_edge_source_precedes_target_witness :
    ∃ l1 l2, Weevy.calculate_execution_order ["a", "b"] [("a", "b")]
      = l1 ++ "b" :: l2 ∧ "a" ∈ l1 :=
  C3_edge_source_precedes_target ["a", "b"] [("a", "b")] "a" "b"
    (by decide) (by decide) (by decide) (by decide)

namespace Weevy

/-! ### Part 2: tool orchestration (`Backend/ToolOrchestrator.py`) -/

/-- A Python value as consulted by the orchestrator's context lookups. -/
inductive PyVal where
  | pyBool (b : Bool)
  | pyStr (s : String)
  | pyNone
deriving DecidableEq, Repr

/-- Python truthiness of a context value (used by the dependency-rule
condition lambdas). -/
def truthy : PyVal → Bool
  | .pyBool b => b
  | .pyStr s => s != ""
  | .pyNone => false

/-- Python `str(...)` of a context value. -/
def pyToString : PyVal → String
  | .pyBool b => if b then "True" else "False"
  | .pyStr s => s
  | .pyNone => "None"

/-- `dict.get(k, default)` on a context dictionary. -/
def ctxGet (ctx : List (String × PyVal)) (k : String) (dflt : PyVal) : PyVal :=
  match ctx.find? (fun p => p.1 = k) with
  | some p => p.2
  | none => dflt

/-- Python `str.lower()` (ASCII content in all catalog keywords). -/
def lowerString (s : String) : String := s.map Char.toLower

/-- Whether `needle` occurs as a contiguous subsequence of the character
list `hay` (Python's `needle in hay` on strings). -/
def charListHas (needle : List Char) : List Char → Bool
  | [] => needle.isEmpty
  | c :: rest => needle.isPrefixOf (c :: rest) || charListHas needle rest

/-- Python `needle in hay` for strings. -/
def strContains (hay needle : String) : Bool :=
  charListHas needle.toList hay.toList

/-- `ToolCapability` from `ToolOrchestrator.py`.  The `input_schema` and
`output_schema` fields (type-annotation dicts never read by the
orchestration logic) are omitted.  Float fields are exact rationals. -/
structure ToolCapability where
  name : String
  description : String
  dependencies : List String
  execution_time_estimate : ℚ
  reliability_score : ℚ
  cost_score : ℚ
  supported_actions : List String
deriving DecidableEq, Repr

/-- The `tool_definitions` catalog of `_build_capability_registry`
(descriptions abbreviated; no catalog entry declares dependencies). -/
def tool_definitions : String → Option ToolCapability := fun n =>
  if n = "web_search" then
    some { name := "web_search", description := "Search the web for information",
           dependencies := [], execution_time_estimate := 3,
           reliability_score := 95/100, cost_score := 2/10,
           supported_actions := ["search", "deep_search", "news_search"] }
  else if n = "email" then
    some { name := "email", description := "Email operations",
           dependencies := [], execution_time_estimate := 2,
           reliability_score := 98/100, cost_score := 1/10,
           supported_actions := ["draft", "send", "search", "read"] }
  else if n = "slack" then
    some { name := "slack", description := "Slack messaging",
           dependencies := [], execution_time_estimate := 3/2,
           reliability_score := 97/100, cost_score := 5/100,
           supported_actions := ["post_message", "fetch_history", "reply_thread"] }
  else if n = "calendar" then
    some { name := "calendar", description := "Calendar management",
           dependencies := [], execution_time_estimate := 5/2,
           reliability_score := 96/100, cost_score := 15/100,
           supported_actions := ["create_event", "find_free_slots", "list_events"] }
  else if n = "notion" then
    some { name := "notion", description := "Notion workspace management",
           dependencies := [], execution_time_estimate := 7/2,
           reliability_score := 94/100, cost_score := 25/100,
           supported_actions := ["create_page", "update_page", "query_database"] }
  else if n = "github" then
    some { name := "github", description := "GitHub management",
           dependencies := [], execution_time_estimate := 2,
           reliability_score := 98/100, cost_score := 1/10,
           supported_actions := ["create_issue", "summarize_pr", "propose_changes"] }
  else if n = "data_analyzer" then
    some { name := "data_analyzer", description := "Data analysis",
           dependencies := [], execution_time_estimate := 10,
           reliability_score := 92/100, cost_score := 8/10,
           supported_actions := ["analyze", "visualize", "predict"] }
  else none

/-- The fallback capability synthesized for available tools absent from the
catalog (dataclass defaults: time 1.0, reliability 0.95, cost 0.1). -/
def basic_capability (n : String) : ToolCapability :=
  { name := n, description := "Tool operations",
    dependencies := [], execution_time_estimate := 1,
    reliability_score := 95/100, cost_score := 1/10,
    supported_actions := ["execute"] }

/-- `_build_capability_registry`: a capability per available tool — the
catalog entry when one exists, otherwise the basic fallback. -/
def build_capability_registry (availableTools : List String) :
    String → Option ToolCapability := fun n =>
  if n ∈ availableTools then some ((tool_definitions n).getD (basic_capability n))
  else none

/-- `_infer_tool_dependencies`: the rule table, each rule guarded by its
context condition, with inferred targets restricted to the selected set. -/
def infer_tool_dependencies (toolName : String) (tools : List String)
    (ctx : List (String × PyVal)) : List String :=
  let rule : Option (List String × Bool) :=
    if toolName = "email" then
      some (["web_search"], truthy (ctxGet ctx "search_before_email" (.pyBool true)))
    else if toolName = "slack" then
      some (["web_search"],
        strContains (lowerString (pyToString (ctxGet ctx "user_request" (.pyStr ""))))
          "search")
    else if toolName = "notion" then
      some (["web_search", "data_analyzer"],
        truthy (ctxGet ctx "analyze_before_document" (.pyBool false)))
    else if toolName = "github" then
      some (["data_analyzer"],
        strContains (lowerString (pyToString (ctxGet ctx "user_request" (.pyStr ""))))
          "analyze")
    else none
  match rule with
  | none => []
  | some (needs, cond) =>
      if cond then needs.filter (fun dep => dep ∈ tools) else []

/-- `_build_tool_dependencies` for one selected tool: explicit catalog
dependencies plus inferred ones (both gated on the tool having a
capability), with self-references and non-selected tools removed and
duplicates collapsed (`list(set(...))`; the set's arbitrary iteration order
is modelled as first-occurrence order, which no proved property depends
on).  `dependencies.get(tool, [])` yields `[]` for unselected keys. -/
def build_tool_dependencies (caps : String → Option ToolCapability)
    (tools : List String) (ctx : List (String × PyVal)) (t : String) :
    List String :=
  if t ∈ tools then
    match caps t with
    | some c =>
        ((c.dependencies ++ infer_tool_dependencies t tools ctx).filter
          (fun dep => dep ≠ t ∧ dep ∈ tools)).dedup
    | none => []
  else []

/-- Python `int(...)` truncation toward zero on an exact rational. -/
def pyTrunc (q : ℚ) : ℤ := q.num.sign * (q.num.natAbs / q.den)

/-- `_calculate_tool_priorities` for one tool: truncated reliability, cost
and time terms plus twice the remaining in-degree (lower runs first). -/
def calculate_tool_priorities (caps : String → Option ToolCapability)
    (tools : List String) (in_degree : String → ℤ) (t : String) : ℤ :=
  (match caps t with
   | some c =>
       pyTrunc ((1 - c.reliability_score) * 10)
         + pyTrunc (c.cost_score * 10)
         + pyTrunc (c.execution_time_estimate / 5)
   | none => 0)
  + 2 * in_degree t

/-- The in-degree map built at the top of the orchestrator's
`_calculate_execution_order`: one unit per dependency of `t` that is itself
a selected tool. -/
def init_tool_in_degree (tools : List String) (deps : String → List String) :
    String → ℤ := fun t =>
  if t ∈ tools then (((deps t).filter (fun dep => dep ∈ tools)).length : ℤ)
  else 0

/-- Python's tuple ordering on `(priority, tool)` pairs. -/
def pairLE (a b : ℤ × String) : Bool :=
  decide (a.1 < b.1) || (decide (a.1 = b.1) && decide (a.2 ≤ b.2))

/-- Insertion into a `pairLE`-sorted list. -/
def insertPair (x : ℤ × String) : List (ℤ × String) → List (ℤ × String)
  | [] => [x]
  | y :: rest => if pairLE x y then x :: y :: rest else y :: insertPair x rest

/-- `list.sort()` on `(priority, tool)` tuples, modelled as insertion sort
(the proved properties depend only on sortedness and membership). -/
def sortPairs (l : List (ℤ × String)) : List (ℤ × String) :=
  l.foldr insertPair []

/-- The priority-queue loop of the orchestrator's
`_calculate_execution_order`: pop the least pair, append its tool, decrement
the in-degree of every selected tool depending on it, and enqueue (with a
freshly computed priority) each tool whose degree reaches zero, re-sorting
the queue after every insertion. -/
def toolKahnLoop (caps : String → Option ToolCapability) (tools : List String)
    (deps : String → List String) :
    Nat → List (ℤ × String) → (String → ℤ) → List String → List String
  | 0, _, _, order => order
  | _ + 1, [], _, order => order
  | fuel + 1, entry :: rest, d, order =>
      let cur := entry.2
      let st := tools.foldl
        (fun (st : (String → ℤ) × List (ℤ × String)) t =>
          if cur ∈ deps t then
            let d2 := updZ st.1 t (st.1 t - 1)
            if d2 t = 0 then
              (d2, sortPairs (st.2 ++ [(calculate_tool_priorities caps tools d2 t, t)]))
            else (d2, st.2)
          else st)
        (d, rest)
      toolKahnLoop caps tools deps fuel st.2 st.1 (order ++ [cur])

/-- The orchestrator's `_calculate_execution_order`: priority-seeded Kahn
sort (fuel again chosen large enough for every input). -/
def calculate_execution_order_tools (caps : String → Option ToolCapability)
    (tools : List String) (deps : String → List String) : List String :=
  let d0 := init_tool_in_degree tools deps
  let seed := sortPairs ((tools.filter (fun t => d0 t = 0)).map
    (fun t => (calculate_tool_priorities caps tools d0 t, t)))
  toolKahnLoop caps tools deps (tools.length * tools.length + tools.length + 1)
    seed d0 []

/-- The wave-construction loop of `_identify_parallel_groups`: collect the
not-yet-scheduled tools whose dependencies are all scheduled; if none is
ready (a dependency cycle), force one remaining tool; cap the wave at
`maxPar`. -/
def identify_parallel_groups_loop (deps : String → List String) (maxPar : Nat) :
    Nat → List String → List String → List (List String)
  | 0, _, _ => []
  | _ + 1, [], _ => []
  | fuel + 1, r0 :: rem, completed =>
      let remaining := r0 :: rem
      let ready := remaining.filter
        (fun t => (deps t).all (fun dep => decide (dep ∈ completed)))
      let chosen := if ready.isEmpty then [r0] else ready
      let grp := chosen.take maxPar
      grp :: identify_parallel_groups_loop deps maxPar fuel
        (remaining.filter (fun t => t ∉ grp)) (completed ++ grp)

/-- `_identify_parallel_groups` (parallel mode gives the wave loop; disabled
mode gives singleton groups). -/
def identify_parallel_groups (enableParallel : Bool) (maxPar : Nat)
    (order : List String) (deps : String → List String) : List (List String) :=
  if enableParallel then
    identify_parallel_groups_loop deps maxPar (order.length + 1) order []
  else order.map (fun t => [t])

/-- `ToolPriority`. -/
inductive ToolPriority where
  | critical
  | high
  | medium
  | low
  | background
deriving DecidableEq, Repr

/-- `_determine_execution_priority`: keyword scan of the lower-cased
`user_request` context entry. -/
def determine_execution_priority (ctx : List (String × PyVal)) : ToolPriority :=
  let ur := lowerString (pyToString (ctxGet ctx "user_request" (.pyStr "")))
  if ["urgent", "asap", "critical", "emergency"].any (fun w => strContains ur w) then
    .critical
  else if ["important", "priority", "soon"].any (fun w => strContains ur w) then
    .high
  else if ["background", "later", "whenever"].any (fun w => strContains ur w) then
    .low
  else .medium

/-- `_estimate_execution_duration`: per-wave maxima in parallel mode (the
missing-capability default has time estimate 1), total sum otherwise. -/
def estimate_execution_duration (caps : String → Option ToolCapability)
    (enableParallel : Bool) (order : List String)
    (groups : List (List String)) : ℚ :=
  if enableParallel then
    (groups.map (fun g =>
      (g.map (fun t => ((caps t).getD (basic_capability "")).execution_time_estimate)).foldl
        max 0)).foldl (· + ·) 0
  else
    (order.map (fun t =>
      ((caps t).getD (basic_capability "")).execution_time_estimate)).foldl (· + ·) 0

/-- `ToolExecutionPlan` (the `execution_id` timestamp string and the raw
`parameters` dict are omitted: no orchestration decision reads them). -/
structure ToolExecutionPlan where
  tools : List String
  execution_order : List String
  dependencies : String → List String
  parallel_groups : List (List String)
  priority : ToolPriority
  estimated_duration : ℚ

/-- `create_execution_plan`: filter the selection against the capability
registry (raising `ValueError` when nothing remains), then build
dependencies, order, waves, duration and priority. -/
def create_execution_plan (availableTools : List String)
    (selectedTools : List String) (ctx : List (String × PyVal)) :
    Except String ToolExecutionPlan :=
  let caps := build_capability_registry availableTools
  let valid_tools := selectedTools.filter (fun t => (caps t).isSome)
  if valid_tools.isEmpty then .error "No valid tools selected for execution"
  else
    let deps := build_tool_dependencies caps valid_tools ctx
    let order := calculate_execution_order_tools caps valid_tools deps
    let groups := identify_parallel_groups true 5 order deps
    .ok { tools := valid_tools, execution_order := order, dependencies := deps,
          parallel_groups := groups,
          priority := determine_execution_priority ctx,
          estimated_duration := estimate_execution_duration caps true order groups }

end Weevy

/-- C10: when the selection contains both email and web_search and the
context has no `search_before_email` key at all, the plan built by
`create_execution_plan` still records web_search as a dependency of email:
the rule's condition reads `context.get('search_before_email', True)`, so
the flag defaults to true when absent. -/
theorem C10_email_depends_on_web_search_by_default
    (availableTools selectedTools : List String) (ctx : List (String × Weevy.PyVal))
    (plan : Weevy.ToolExecutionPlan)
    (hnokey : ctx.find? (fun p => p.1 = "search_before_email") = none)
    (hplan : Weevy.create_execution_plan availableTools selectedTools ctx = .ok plan)
    (hemail : "email" ∈ plan.tools) (hws : "web_search" ∈ plan.tools) :
    "web_search" ∈ plan.dependencies "email" := by
  unfold Weevy.create_execution_plan at hplan
  by_cases hv : (selectedTools.filter
      (fun t => (Weevy.build_capability_registry availableTools t).isSome)).isEmpty
  · rw [if_pos hv] at hplan
    exact absurd hplan (by simp)
  · rw [if_neg hv] at hplan
    have hp := Except.ok.inj hplan
    subst hp
    dsimp only at hemail hws ⊢
    have hsome : (Weevy.build_capability_registry availableTools "email").isSome := by
      have := (List.mem_filter.1 hemail).2
      simpa using this
    obtain ⟨c, hc⟩ := Option.isSome_iff_exists.1 hsome
    unfold Weevy.build_tool_dependencies
    rw [if_pos hemail, hc]
    rw [List.mem_dedup, List.mem_filter]
    constructor
    · refine List.mem_append.2 (Or.inr ?_)
      unfold Weevy.infer_tool_dependencies
      simp only [if_pos rfl]
      rw [Weevy.ctxGet, hnokey]
      simp [Weevy.truthy, hws]
      have h2 := List.mem_filter.1 hws
      exact ⟨h2.1, h2.2⟩
    · simp only [decide_eq_true_eq]
      exact ⟨by simp, hws⟩

namespace Weevy

/-- The plan produced for available/selected tools {web_search, email} with
an empty context, extracted for the C10 witness. -/
def c10Plan : ToolExecutionPlan :=
  (create_execution_plan ["web_search", "email"] ["web_search", "email"]
    []).toOption.getD ⟨[], [], fun _ => [], [], .medium, 0⟩

end Weevy

/-- Witness for C10: with an empty context, the dependency map of the plan
for {web_search, email} contains web_search among email's dependencies. -/
theorem C10_email_depends_on_web_search_by_default_witness :
    "web_search" ∈ Weevy.c10Plan.dependencies "email" :=
  C10_email_depends_on_web_search_by_default ["web_search", "email"]
    ["web_search", "email"] [] Weevy.c10Plan rfl (by rfl) (by decide) (by decide)

namespace Weevy

/-! ### `_execute_single_tool`: timeout / retry state machine -/

/-- Outcome of one attempt at invoking a tool callable: a returned value, a
raised exception, or exceeding the `asyncio.wait_for` deadline. -/
inductive ToolOutcome where
  | ok (v : PyVal)
  | exn (msg : String)
  | timedOut
deriving DecidableEq, Repr

/-- `ToolExecutionStatus`. -/
inductive ToolStatus where
  | pending
  | running
  | success
  | failed
  | skipped
  | timeout
deriving DecidableEq, Repr

/-- `ToolExecutionResult`.  The wall-clock `execution_time` field and the
result timestamp are not modelled; the metadata dict is represented by its
two possible keys (`attempt` on the success path, `attempts` on the
exhausted-retries paths). -/
structure ToolExecutionResult where
  tool_name : String
  status : ToolStatus
  result_data : Option PyVal
  error_message : Option String
  attemptMeta : Option Nat
  attemptsMeta : Option Nat
deriving DecidableEq, Repr

/-- The `for attempt in range(self.retry_attempts)` loop of
`_execute_single_tool`.  `attempt` is the 0-based Python loop variable and
`rem` the number of loop iterations left after the current one (so `rem = 0`
is the `attempt == self.retry_attempts - 1` final iteration).  Besides the
returned result, the trace of `asyncio.sleep` delays (in seconds) is
collected: the exception handler sleeps `1.0 * (attempt + 1)` before a
non-final retry, the timeout handler retries without sleeping. -/
def execSingleLoop (toolName : String) (b : Nat → ToolOutcome) (total : Nat) :
    Nat → Nat → ToolExecutionResult × List ℚ
  | attempt, 0 =>
      match b attempt with
      | .ok v =>
          (⟨toolName, .success, some v, none, some (attempt + 1), none⟩, [])
      | .timedOut =>
          (⟨toolName, .timeout, none, some "Tool execution timed out", none,
            some total⟩, [])
      | .exn m => (⟨toolName, .failed, none, some m, none, some total⟩, [])
  | attempt, rem + 1 =>
      match b attempt with
      | .ok v =>
          (⟨toolName, .success, some v, none, some (attempt + 1), none⟩, [])
      | .timedOut => execSingleLoop toolName b total (attempt + 1) rem
      | .exn m =>
          let r := execSingleLoop toolName b total (attempt + 1) rem
          (r.1, ((attempt : ℚ) + 1) :: r.2)

/-- `_execute_single_tool` with `retry_attempts` attempts: `none` models
Python's implicit `return None` when `range(retry_attempts)` is empty. -/
def execute_single_tool (toolName : String) (b : Nat → ToolOutcome)
    (retryAttempts : Nat) : Option (ToolExecutionResult × List ℚ) :=
  match retryAttempts with
  | 0 => none
  | k + 1 => some (execSingleLoop toolName b (k + 1) 0 k)

/-- Attempt `a` raised an exception. -/
def raised (b : Nat → ToolOutcome) (a : Nat) : Bool :=
  match b a with
  | .exn _ => true
  | _ => false

/-- Attempt `a` returned a value. -/
def succeeded (b : Nat → ToolOutcome) (a : Nat) : Bool :=
  match b a with
  | .ok _ => true
  | _ => false

/-- If the first `N` attempts fail and attempt `N` (0-based) succeeds within
the window, the loop returns the success result of attempt `N`, recording
`attempt = N + 1`. -/
theorem execSingleLoop_success (toolName : String) (b : Nat → ToolOutcome)
    (total : Nat) :
    ∀ (N k attempt : Nat) (v : PyVal), N ≤ k →
      (∀ i, i < N → ∀ w, b (attempt + i) ≠ .ok w) →
      b (attempt + N) = .ok v →
      (execSingleLoop toolName b total attempt k).1
        = ⟨toolName, .success, some v, none, some (attempt + N + 1), none⟩ := by
  intro N
  induction N with
  | zero =>
      intro k attempt v _ _ hok
      rw [Nat.add_zero] at hok
      cases k with
      | zero => simp [execSingleLoop, hok]
      | succ k => simp [execSingleLoop, hok]
  | succ M ih =>
      intro k attempt v hNk hfail hok
      cases k with
      | zero => omega
      | succ k =>
          have hb : ∀ w, b attempt ≠ .ok w := by
            intro w
            have := hfail 0 (Nat.succ_pos M) w
            rwa [Nat.add_zero] at this
          have hfail2 : ∀ i, i < M → ∀ w, b (attempt + 1 + i) ≠ .ok w := by
            intro i hi w
            have := hfail (i + 1) (by omega) w
            rwa [show attempt + (i + 1) = attempt + 1 + i by omega] at this
          have hok2 : b (attempt + 1 + M) = .ok v := by
            rwa [show attempt + (M + 1) = attempt + 1 + M by omega] at hok
          have harith : attempt + 1 + M + 1 = attempt + (M + 1) + 1 := by omega
          cases hbv : b attempt with
          | ok w => exact absurd hbv (hb w)
          | timedOut =>
              simp only [execSingleLoop, hbv]
              rw [ih k (attempt + 1) v (by omega) hfail2 hok2, harith]
          | exn m =>
              simp only [execSingleLoop, hbv]
              rw [ih k (attempt + 1) v (by omega) hfail2 hok2, harith]

/-- If no attempt in the window succeeds, the loop ends with a terminal
`failed` or `timeout` result recording `attempts = retry_attempts`. -/
theorem execSingleLoop_exhausted (toolName : String) (b : Nat → ToolOutcome)
    (total : Nat) :
    ∀ (k attempt : Nat),
      (∀ i, i ≤ k → ∀ w, b (attempt + i) ≠ .ok w) →
      ((execSingleLoop toolName b total attempt k).1.status = .failed ∨
        (execSingleLoop toolName b total attempt k).1.status = .timeout) ∧
      (execSingleLoop toolName b total attempt k).1.attemptsMeta = some total := by
  intro k
  induction k with
  | zero =>
      intro attempt hfail
      cases hbv : b attempt with
      | ok w =>
          exact absurd (by simpa using hbv) (hfail 0 (Nat.le_refl 0) w)
      | timedOut => simp [execSingleLoop, hbv]
      | exn m => simp [execSingleLoop, hbv]
  | succ k ih =>
      intro attempt hfail
      have hfail2 : ∀ i, i ≤ k → ∀ w, b (attempt + 1 + i) ≠ .ok w := by
        intro i hi w
        have := hfail (i + 1) (by omega) w
        rwa [show attempt + (i + 1) = attempt + 1 + i by omega] at this
      cases hbv : b attempt with
      | ok w =>
          exact absurd (by simpa using hbv) (hfail 0 (by omega) w)
      | timedOut =>
          simp only [execSingleLoop, hbv]
          exact ih (attempt + 1) hfail2
      | exn m =>
          simp only [execSingleLoop, hbv]
          exact ih (attempt + 1) hfail2

/-- Every result the loop can return is terminal. -/
theorem execSingleLoop_terminal (toolName : String) (b : Nat → ToolOutcome)
    (total : Nat) :
    ∀ (k attempt : Nat),
      (execSingleLoop toolName b total attempt k).1.status = .success ∨
      (execSingleLoop toolName b total attempt k).1.status = .failed ∨
      (execSingleLoop toolName b total attempt k).1.status = .timeout := by
  intro k
  induction k with
  | zero =>
      intro attempt
      cases hbv : b attempt with
      | ok w => simp [execSingleLoop, hbv]
      | timedOut => simp [execSingleLoop, hbv]
      | exn m => simp [execSingleLoop, hbv]
  | succ k ih =>
      intro attempt
      cases hbv : b attempt with
      | ok w => simp [execSingleLoop, hbv]
      | timedOut =>
          simp only [execSingleLoop, hbv]
          exact ih (attempt + 1)
      | exn m =>
          simp only [execSingleLoop, hbv]
          exact ih (attempt + 1)

/-- The loop result always names the executed tool. -/
theorem execSingleLoop_name (toolName : String) (b : Nat → ToolOutcome)
    (total : Nat) :
    ∀ (k attempt : Nat),
      (execSingleLoop toolName b total attempt k).1.tool_name = toolName := by
  intro k
  induction k with
  | zero =>
      intro attempt
      cases hbv : b attempt with
      | ok w => simp [execSingleLoop, hbv]
      | timedOut => simp [execSingleLoop, hbv]
      | exn m => simp [execSingleLoop, hbv]
  | succ k ih =>
      intro attempt
      cases hbv : b attempt with
      | ok w => simp [execSingleLoop, hbv]
      | timedOut =>
          simp only [execSingleLoop, hbv]
          exact ih (attempt + 1)
      | exn m =>
          simp only [execSingleLoop, hbv]
          exact ih (attempt + 1)

/-- The sleep trace of the loop: one delay of `attempt + 1` seconds for each
non-final attempt that raised an exception, none for timeouts. -/
theorem execSingleLoop_sleeps (toolName : String) (b : Nat → ToolOutcome)
    (total : Nat) :
    ∀ (k attempt : Nat),
      (execSingleLoop toolName b total attempt k).2
        = (((List.range' attempt k).takeWhile (fun a => !succeeded b a)).filter
            (fun a => raised b a)).map (fun a => (a : ℚ) + 1) := by
  intro k
  induction k with
  | zero =>
      intro attempt
      cases hbv : b attempt with
      | ok w => simp [execSingleLoop, hbv]
      | timedOut => simp [execSingleLoop, hbv]
      | exn m => simp [execSingleLoop, hbv]
  | succ k ih =>
      intro attempt
      rw [List.range'_succ]
      cases hbv : b attempt with
      | ok w =>
          have hs : succeeded b attempt = true := by simp [succeeded, hbv]
          simp [execSingleLoop, hbv, List.takeWhile_cons, hs]
      | timedOut =>
          have hs : succeeded b attempt = false := by simp [succeeded, hbv]
          have hr : raised b attempt = false := by simp [raised, hbv]
          simp only [execSingleLoop, hbv, List.takeWhile_cons, hs,
            Bool.not_false, if_true, List.filter_cons, hr]
          exact ih (attempt + 1)

      | exn m =>
          have hs : succeeded b attempt = false := by simp [succeeded, hbv]
          have hr : raised b attempt = true := by simp [raised, hbv]
          simp only [execSingleLoop, hbv, List.takeWhile_cons, hs,
            Bool.not_false, if_true, List.filter_cons, hr]
          simp [ih (attempt + 1)]

end Weevy

/-- C5: with `retry_attempts` total attempts allowed (at least one), a tool
whose callable fails on attempts 1..N and succeeds on attempt N+1 ≤
retry_attempts yields a result with status `success` and `attempt = N + 1`
in its metadata; a tool that never succeeds within the window yields a
terminal `failed` or `timeout` result with `attempts = retry_attempts`; and
no returned result ever has status `pending` (or `running`). -/
theorem C5_retry_terminal_outcomes (toolName : String)
    (b : Nat → Weevy.ToolOutcome) (total : Nat) :
    (∀ (N : Nat) (v : Weevy.PyVal), N + 1 ≤ total →
      (∀ a, a < N → ∀ w, b a ≠ .ok w) → b N = .ok v →
      ∃ r s, Weevy.execute_single_tool toolName b total = some (r, s) ∧
        r.status = .success ∧ r.attemptMeta = some (N + 1)) ∧
    ((∀ a, a < total → ∀ w, b a ≠ .ok w) → 1 ≤ total →
      ∃ r s, Weevy.execute_single_tool toolName b total = some (r, s) ∧
        (r.status = .failed ∨ r.status = .timeout) ∧
        r.attemptsMeta = some total) ∧
    (∀ r s, Weevy.execute_single_tool toolName b total = some (r, s) →
      r.status ≠ .pending ∧ r.status ≠ .running) := by
  refine ⟨?_, ?_, ?_⟩
  · intro N v hN hfail hok
    cases total with
    | zero => omega
    | succ k =>
        refine ⟨_, _, rfl, ?_⟩
        have := Weevy.execSingleLoop_success toolName b (k + 1) N k 0 v
          (by omega) (by intro i hi w; simpa using hfail i hi w)
          (by simpa using hok)
        rw [this]
        refine ⟨rfl, ?_⟩
        simp
  · intro hfail hpos
    cases total with
    | zero => omega
    | succ k =>
        refine ⟨_, _, rfl, ?_⟩
        have := Weevy.execSingleLoop_exhausted toolName b (k + 1) k 0
          (by intro i hi w; simpa using hfail i (by omega) w)
        exact ⟨this.1, this.2⟩
  · intro r s hsome
    cases total with
    | zero => exact absurd hsome (by simp [Weevy.execute_single_tool])
    | succ k =>
        have hr : r = (Weevy.execSingleLoop toolName b (k + 1) 0 k).1 := by
          have := hsome
          simp only [Weevy.execute_single_tool] at this
          have h2 := Option.some.inj this
          exact (congrArg Prod.fst h2).symm
        subst hr
        rcases Weevy.execSingleLoop_terminal toolName b (k + 1) k 0 with h | h | h <;>
          simp [h]

/-- Witness for C5: a callable raising on attempt 1 and succeeding on
attempt 2 within 3 allowed attempts gives `success` with `attempt = 2`;
one that always times out gives a terminal result with `attempts = 3`. -/
theorem C5_retry_terminal_outcomes_witness :
    (∃ r s, Weevy.execute_single_tool "t"
        (fun a => if a = 0 then .exn "boom" else .ok .pyNone) 3 = some (r, s) ∧
      r.status = .success ∧ r.attemptMeta = some 2) ∧
    (∃ r s, Weevy.execute_single_tool "t" (fun _ => .timedOut) 3 = some (r, s) ∧
      (r.status = .failed ∨ r.status = .timeout) ∧ r.attemptsMeta = some 3) :=
  ⟨(C5_retry_terminal_outcomes "t"
      (fun a => if a = 0 then .exn "boom" else .ok .pyNone) 3).1 1 .pyNone
      (by omega)
      (by
        intro a ha w
        have haz : a = 0 := by omega
        subst haz
        simp)
      rfl,
   (C5_retry_terminal_outcomes "t" (fun _ => .timedOut) 3).2.1
      (by intro a _ w h; exact absurd h (by simp)) (by omega)⟩

namespace Weevy

/-- Tool behaviour for the C6 counterexample: the first attempt exceeds the
deadline, the second returns. -/
def c6Behaviour : Nat → ToolOutcome :=
  fun a => if a = 0 then .timedOut else .ok .pyNone

end Weevy

/-- C6 counterexample: the claim requires a backoff delay of 1.0 × attempt
seconds to be awaited before each retry in the timeout case as well.  For a
tool that times out on attempt 1 and is retried, the code awaits no delay at
all (the `asyncio.TimeoutError` handler retries immediately; only the
generic exception handler sleeps): the awaited-delay trace is `[]`, not the
`[1.0]` the claim demands. -/
theorem C6_timeout_retry_has_no_backoff :
    (Weevy.execute_single_tool "t" Weevy.c6Behaviour 3).map (fun p => p.2)
      = some [] ∧ some ([] : List ℚ) ≠ some [(1 : ℚ)] := by
  constructor
  · rfl
  · simp

/-- C6 as amended: a retry is scheduled only after a timeout or an
exception, and a backoff delay is awaited only in the exception case — the
trace of awaited delays is exactly `attempt + 1` seconds for each executed
non-final attempt that raised an exception (attempts stop at the first
success), and timeouts contribute no delay. -/
theorem C6_amended_backoff_only_after_exceptions (toolName : String)
    (b : Nat → Weevy.ToolOutcome) (k : Nat) :
    (Weevy.execute_single_tool toolName b (k + 1)).map (fun p => p.2)
      = some ((((List.range' 0 k).takeWhile
            (fun a => !Weevy.succeeded b a)).filter
          (fun a => Weevy.raised b a)).map (fun a => (a : ℚ) + 1)) := by
  show some (Weevy.execSingleLoop toolName b (k + 1) 0 k).2 = _
  exact congrArg some (Weevy.execSingleLoop_sleeps toolName b (k + 1) k 0)

namespace Weevy

/-! ### Sequential and parallel tool execution -/

/-- A tool-behaviour oracle: for a tool name and the accumulated context it
gives the outcome of each 0-based invocation attempt. -/
def ToolBehaviour : Type := String → List (String × PyVal) → Nat → ToolOutcome

/-- Dictionary update on the accumulated context (the new binding shadows
any previous one under `ctxGet`'s first-match lookup). -/
def ctxSet (ctx : List (String × PyVal)) (k : String) (v : PyVal) :
    List (String × PyVal) := (k, v) :: ctx

/-- One call of `_execute_single_tool` as performed by the executors, with
the orchestrator's configured `retry_attempts = 3` and the sleep trace
dropped. -/
def runSingleTool (beh : ToolBehaviour) (t : String)
    (ctx : List (String × PyVal)) : ToolExecutionResult :=
  (execSingleLoop t (beh t ctx) 3 0 2).1

/-- The context merge performed after a tool finishes: successful results
are folded in under `"<tool>_result"`. -/
def mergeResult (ctx : List (String × PyVal)) (r : ToolExecutionResult) :
    List (String × PyVal) :=
  if r.status = .success then
    ctxSet ctx (r.tool_name ++ "_result") (r.result_data.getD .pyNone)
  else ctx

/-- `_execute_sequential`: run the tools in execution order against the
accumulated context; after a `failed` result under a CRITICAL or HIGH plan
priority, stop (the failing result is still appended). -/
def execute_sequential (beh : ToolBehaviour) (priority : ToolPriority) :
    List String → List (String × PyVal) → List ToolExecutionResult
  | [], _ => []
  | t :: rest, ctx =>
      let r := runSingleTool beh t ctx
      let ctx2 := mergeResult ctx r
      if r.status = .failed ∧ (priority = .critical ∨ priority = .high) then [r]
      else r :: execute_sequential beh priority rest ctx2

/-- The same traversal without the fail-fast cut: the result of every tool
in execution order, with the context threaded identically. -/
def sequentialAll (beh : ToolBehaviour) :
    List String → List (String × PyVal) → List ToolExecutionResult
  | [], _ => []
  | t :: rest, ctx =>
      let r := runSingleTool beh t ctx
      r :: sequentialAll beh rest (mergeResult ctx r)

/-- The prefix of a result list up to and including its first `failed`
entry. -/
def cutAfterFirstFailed : List ToolExecutionResult → List ToolExecutionResult
  | [] => []
  | r :: rest =>
      if r.status = .failed then [r] else r :: cutAfterFirstFailed rest

end Weevy

/-- C8: with parallel execution disabled, tools run strictly in
`execution_order` (the emitted results name the tools in exactly that
order); under a CRITICAL or HIGH plan priority the run is cut immediately
after the first `failed` result, skipping every remaining tool; under
MEDIUM, LOW or BACKGROUND priority every tool runs, failures
notwithstanding. -/
theorem C8_sequential_fail_fast (beh : Weevy.ToolBehaviour)
    (priority : Weevy.ToolPriority) (order : List String)
    (ctx : List (String × Weevy.PyVal)) :
    ((priority = .critical ∨ priority = .high) →
      Weevy.execute_sequential beh priority order ctx
        = Weevy.cutAfterFirstFailed (Weevy.sequentialAll beh order ctx)) ∧
    ((priority = .medium ∨ priority = .low ∨ priority = .background) →
      Weevy.execute_sequential beh priority order ctx
        = Weevy.sequentialAll beh order ctx) ∧
    (Weevy.sequentialAll beh order ctx).map (fun r => r.tool_name) = order := by
  refine ⟨?_, ?_, ?_⟩
  · intro hpr
    induction order generalizing ctx with
    | nil => rfl
    | cons t rest ih =>
        simp only [Weevy.execute_sequential, Weevy.sequentialAll,
          Weevy.cutAfterFirstFailed]
        by_cases hf : (Weevy.runSingleTool beh t ctx).status = .failed
        · rw [if_pos ⟨hf, hpr⟩, if_pos hf]
        · rw [if_neg (fun h => hf h.1), if_neg hf, ih]
  · intro hpr
    induction order generalizing ctx with
    | nil => rfl
    | cons t rest ih =>
        simp only [Weevy.execute_sequential, Weevy.sequentialAll]
        have hnc : ¬ ((Weevy.runSingleTool beh t ctx).status = .failed ∧
            (priority = .critical ∨ priority = .high)) := by
          rintro ⟨_, h | h⟩ <;> rcases hpr with h2 | h2 | h2 <;> simp_all
        rw [if_neg hnc, ih]
  · induction order generalizing ctx with
    | nil => rfl
    | cons t rest ih =>
        simp only [Weevy.sequentialAll, List.map_cons, Weevy.runSingleTool]
        rw [Weevy.execSingleLoop_name, ih]

namespace Weevy

/-- Behaviour for the C8 witness: tool `a` raises on every attempt (so its
result is `failed` after the retries); every other tool succeeds at once. -/
def c8Behaviour : ToolBehaviour :=
  fun t _ _ => if t = "a" then .exn "boom" else .ok .pyNone

end Weevy

/-- Witness for C8: under CRITICAL priority the failing head tool cuts the
run (the second tool is skipped); under MEDIUM both run; the emitted names
follow the order. -/
theorem C8_sequential_fail_fast_witness :
    Weevy.execute_sequential Weevy.c8Behaviour .critical ["a", "b"] []
      = Weevy.cutAfterFirstFailed (Weevy.sequentialAll Weevy.c8Behaviour ["a", "b"] []) ∧
    Weevy.execute_sequential Weevy.c8Behaviour .medium ["a", "b"] []
      = Weevy.sequentialAll Weevy.c8Behaviour ["a", "b"] [] ∧
    (Weevy.sequentialAll Weevy.c8Behaviour ["a", "b"] []).map (fun r => r.tool_name)
      = ["a", "b"] :=
  ⟨(C8_sequential_fail_fast Weevy.c8Behaviour .critical ["a", "b"] []).1
      (Or.inl rfl),
   (C8_sequential_fail_fast Weevy.c8Behaviour .medium ["a", "b"] []).2.1
      (Or.inl rfl),
   (C8_sequential_fail_fast Weevy.c8Behaviour .medium ["a", "b"] []).2.2⟩

namespace Weevy

/-- `_execute_parallel_groups`: every member of a wave runs against the same
accumulated context (the synchronous barrier); successful results are merged
in before the next wave.  `asyncio.gather(..., return_exceptions=True)`
converts raised exceptions into values; in this model `runSingleTool` is
total, so the `isinstance(result, Exception)` branch is unreachable. -/
def execute_parallel_groups (beh : ToolBehaviour) :
    List (List String) → List (String × PyVal) → List ToolExecutionResult
  | [], _ => []
  | g :: rest, ctx =>
      let results := g.map (fun t => runSingleTool beh t ctx)
      results ++ execute_parallel_groups beh rest (results.foldl mergeResult ctx)

/-- The synthetic result built by `execute_tool_sequence`'s exception
handler. -/
def planFailureResult (e : String) : ToolExecutionResult :=
  ⟨"execution_plan", .failed, none, some e, none, none⟩

/-- `execute_tool_sequence`: parallel waves when enabled and non-empty,
sequential otherwise.  `fault` models an exception escaping the inner
orchestration (`except Exception` in the source): at that point the local
`results` list still holds its initial `[]` — the assignment from the inner
call never completed — so the handler's `results.append(failure_result)`
makes the returned list exactly the one synthetic failed result. -/
def execute_tool_sequence (enableParallel : Bool) (beh : ToolBehaviour)
    (plan : ToolExecutionPlan) (ctx : List (String × PyVal))
    (fault : Option String) : List ToolExecutionResult :=
  match fault with
  | some e => [planFailureResult e]
  | none =>
      if enableParallel ∧ plan.parallel_groups ≠ [] then
        execute_parallel_groups beh plan.parallel_groups ctx
      else execute_sequential beh plan.priority plan.execution_order ctx

/-- Every result produced by one `_execute_single_tool` call is terminal. -/
theorem runSingleTool_terminal (beh : ToolBehaviour) (t : String)
    (ctx : List (String × PyVal)) :
    (runSingleTool beh t ctx).status ≠ .pending ∧
    (runSingleTool beh t ctx).status ≠ .running := by
  rcases execSingleLoop_terminal t (beh t ctx) 3 2 0 with h | h | h <;>
    rw [runSingleTool] <;> rw [h] <;> exact ⟨by simp, by simp⟩

/-- Results of the parallel wave executor are all terminal. -/
theorem execute_parallel_groups_terminal (beh : ToolBehaviour) :
    ∀ (groups : List (List String)) (ctx : List (String × PyVal)),
      ∀ r ∈ execute_parallel_groups beh groups ctx,
        r.status ≠ .pending ∧ r.status ≠ .running := by
  intro groups
  induction groups with
  | nil => intro ctx r hr; exact absurd hr (by simp [execute_parallel_groups])
  | cons g rest ih =>
      intro ctx r hr
      simp only [execute_parallel_groups] at hr
      rcases List.mem_append.1 hr with hr | hr
      · obtain ⟨t, _, ht⟩ := List.mem_map.1 hr
        exact ht ▸ runSingleTool_terminal beh t ctx
      · exact ih _ r hr

/-- Results of the sequential executor are all terminal. -/
theorem execute_sequential_terminal (beh : ToolBehaviour)
    (priority : ToolPriority) :
    ∀ (order : List String) (ctx : List (String × PyVal)),
      ∀ r ∈ execute_sequential beh priority order ctx,
        r.status ≠ .pending ∧ r.status ≠ .running := by
  intro order
  induction order with
  | nil => intro ctx r hr; exact absurd hr (by simp [execute_sequential])
  | cons t rest ih =>
      intro ctx r hr
      simp only [execute_sequential] at hr
      by_cases hf : (runSingleTool beh t ctx).status = .failed ∧
          (priority = .critical ∨ priority = .high)
      · rw [if_pos hf] at hr
        have : r = runSingleTool beh t ctx := by simpa using hr
        exact this ▸ runSingleTool_terminal beh t ctx
      · rw [if_neg hf] at hr
        rcases List.mem_cons.1 hr with hr | hr
        · exact hr ▸ runSingleTool_terminal beh t ctx
        · exact ih _ r hr

end Weevy

/-- C9: `execute_tool_sequence` always hands its caller a plain result list:
every entry is a terminal result (never `pending` or `running` — individual
tool failures and timeouts are captured by the retry wrapper rather than
thrown), and an exception escaping the inner orchestration is converted into
exactly one synthetic `failed` result, which is the entire returned list. -/
theorem C9_always_returns_result_list (enableParallel : Bool)
    (beh : Weevy.ToolBehaviour) (plan : Weevy.ToolExecutionPlan)
    (ctx : List (String × Weevy.PyVal)) (fault : Option String) :
    (∀ r ∈ Weevy.execute_tool_sequence enableParallel beh plan ctx fault,
      r.status ≠ .pending ∧ r.status ≠ .running) ∧
    (∀ e, fault = some e →
      Weevy.execute_tool_sequence enableParallel beh plan ctx fault
        = [Weevy.planFailureResult e]) := by
  constructor
  · intro r hr
    cases fault with
    | some e =>
        have : r = Weevy.planFailureResult e := by
          simpa [Weevy.execute_tool_sequence] using hr
        rw [this]
        exact ⟨by simp [Weevy.planFailureResult], by simp [Weevy.planFailureResult]⟩
    | none =>
        simp only [Weevy.execute_tool_sequence] at hr
        by_cases hpar : enableParallel ∧ plan.parallel_groups ≠ []
        · rw [if_pos hpar] at hr
          exact Weevy.execute_parallel_groups_terminal beh plan.parallel_groups ctx r hr
        · rw [if_neg hpar] at hr
          exact Weevy.execute_sequential_terminal beh plan.priority
            plan.execution_order ctx r hr
  · intro e he
    rw [he]
    rfl

namespace Weevy

/-- A minimal plan for the C9 witness. -/
def c9Plan : ToolExecutionPlan :=
  { tools := ["a"], execution_order := ["a"], dependencies := fun _ => [],
    parallel_groups := [["a"]], priority := .medium, estimated_duration := 1 }

end Weevy

/-- Witness for C9: an internal orchestration exception yields exactly the
single synthetic failed result. -/
theorem C9_always_returns_result_list_witness :
    Weevy.execute_tool_sequence true Weevy.c8Behaviour Weevy.c9Plan []
      (some "internal error") = [Weevy.planFailureResult "internal error"] :=
  (C9_always_returns_result_list true Weevy.c8Behaviour Weevy.c9Plan []
    (some "internal error")).2 "internal error" rfl

namespace Weevy

/-- On a nonnegative rational, Python `int()` truncation agrees with the
floor. -/
theorem pyTrunc_eq_floor (q : ℚ) (h : 0 ≤ q) : pyTrunc q = ⌊q⌋ := by
  rw [pyTrunc, Rat.floor_def]
  have hnum : 0 ≤ q.num := Rat.num_nonneg.2 h
  obtain ⟨n, hn⟩ := Int.eq_ofNat_of_zero_le hnum
  rw [hn]
  cases n with
  | zero => simp
  | succ m =>
      simp only [Int.sign, Int.natAbs_ofNat]
      simp

/-- The per-tool priority score exactly as the claim words it, with `round`
in place of the source's `int()` truncation (kept for comparison against the
embedded code). -/
def claimed_round_score (caps : String → Option ToolCapability)
    (in_degree : String → ℤ) (t : String) : ℤ :=
  (match caps t with
   | some c =>
       round ((1 - c.reliability_score) * 10) + round (c.cost_score * 10)
         + round (c.execution_time_estimate / 5)
   | none => 0)
  + 2 * in_degree t

/-- `pairLE` is reflexive. -/
theorem pairLE_refl (a : ℤ × String) : pairLE a a = true := by
  simp [pairLE]

/-- `pairLE` is total. -/
theorem pairLE_total (a b : ℤ × String) :
    pairLE a b = true ∨ pairLE b a = true := by
  simp only [pairLE, Bool.or_eq_true, Bool.and_eq_true, decide_eq_true_eq]
  rcases lt_trichotomy a.1 b.1 with h | h | h
  · exact Or.inl (Or.inl h)
  · rcases le_total a.2 b.2 with h2 | h2
    · exact Or.inl (Or.inr ⟨h, h2⟩)
    · exact Or.inr (Or.inr ⟨h.symm, h2⟩)
  · exact Or.inr (Or.inl h)

/-- `pairLE` is transitive. -/
theorem pairLE_trans (a b c : ℤ × String) (h1 : pairLE a b = true)
    (h2 : pairLE b c = true) : pairLE a c = true := by
  simp only [pairLE, Bool.or_eq_true, Bool.and_eq_true, decide_eq_true_eq]
    at h1 h2 ⊢
  rcases h1 with h1 | ⟨h1e, h1s⟩ <;> rcases h2 with h2 | ⟨h2e, h2s⟩
  · exact Or.inl (lt_trans h1 h2)
  · exact Or.inl (by omega)
  · exact Or.inl (by omega)
  · exact Or.inr ⟨by omega, le_trans h1s h2s⟩

/-- Membership through insertion. -/
theorem mem_insertPair (x y : ℤ × String) :
    ∀ s, y ∈ insertPair x s ↔ y = x ∨ y ∈ s := by
  intro s
  induction s with
  | nil => simp [insertPair]
  | cons z rest ih =>
      simp only [insertPair]
      by_cases h : pairLE x z = true
      · rw [if_pos h]
        simp [List.mem_cons]
      · rw [if_neg h]
        simp [List.mem_cons, ih]
        tauto

/-- Membership is preserved by the sort. -/
theorem mem_sortPairs (y : ℤ × String) :
    ∀ l, y ∈ sortPairs l ↔ y ∈ l := by
  intro l
  induction l with
  | nil => simp [sortPairs]
  | cons a l ih =>
      show y ∈ insertPair a (sortPairs l) ↔ _
      rw [mem_insertPair]
      simp [List.mem_cons, ih]

/-- The head of the sorted queue is `pairLE`-minimal among its entries. -/
theorem sortPairs_head_min :
    ∀ (l : List (ℤ × String)) (h : ℤ × String) (t : List (ℤ × String)),
      sortPairs l = h :: t → ∀ x ∈ l, pairLE h x = true := by
  intro l
  induction l with
  | nil =>
      intro h t hsort
      simp [sortPairs] at hsort
  | cons a l ih =>
      intro h t hsort x hx
      have hsort2 : insertPair a (sortPairs l) = h :: t := hsort
      cases hs : sortPairs l with
      | nil =>
          rw [hs] at hsort2
          simp only [insertPair] at hsort2
          injection hsort2 with hh _
          subst hh
          rcases List.mem_cons.1 hx with hxa | hxl
          · exact hxa ▸ pairLE_refl a
          · exact absurd ((mem_sortPairs x l).2 hxl) (by simp [hs])
      | cons z rest =>
          rw [hs] at hsort2
          simp only [insertPair] at hsort2
          by_cases hle : pairLE a z = true
          · rw [if_pos hle] at hsort2
            injection hsort2 with hh _
            subst hh
            rcases List.mem_cons.1 hx with hxa | hxl
            · exact hxa ▸ pairLE_refl a
            · exact pairLE_trans a z x hle (ih z rest hs x hxl)
          · rw [if_neg hle] at hsort2
            injection hsort2 with hh _
            subst hh
            have hza : pairLE z a = true := by
              rcases pairLE_total a z with h2 | h2
              · exact absurd h2 hle
              · exact h2
            rcases List.mem_cons.1 hx with hxa | hxl
            · exact hxa ▸ hza
            · exact ih z rest hs x hxl

/-- The Kahn loop output always extends the accumulated order. -/
theorem toolKahnLoop_prefix (caps : String → Option ToolCapability)
    (tools : List String) (deps : String → List String) :
    ∀ (fuel : Nat) (q : List (ℤ × String)) (d : String → ℤ)
      (order : List String),
      ∃ rest, toolKahnLoop caps tools deps fuel q d order = order ++ rest := by
  intro fuel
  induction fuel with
  | zero =>
      intro q d order
      exact ⟨[], by simp [toolKahnLoop]⟩
  | succ fuel ih =>
      intro q d order
      cases q with
      | nil => exact ⟨[], by simp [toolKahnLoop]⟩
      | cons e rest =>
          simp only [toolKahnLoop]
          obtain ⟨r2, hr⟩ := ih _ _ (order ++ [e.2])
          refine ⟨e.2 :: r2, ?_⟩
          rw [hr, List.append_assoc]
          rfl

end Weevy

/-- C7 counterexample: the claim's score formula uses `round`, the code uses
`int()` truncation.  For data_analyzer (reliability 0.92, cost 0.8, time
10.0, in-degree 0) the code computes int(0.8) + int(8.0) + int(2.0) = 10,
while the claimed round-based formula gives round(0.8) + round(8.0) +
round(2.0) = 11. -/
theorem C7_truncation_differs_from_round :
    Weevy.calculate_tool_priorities
        (Weevy.build_capability_registry ["data_analyzer"]) ["data_analyzer"]
        (fun _ => 0) "data_analyzer" = 10 ∧
    Weevy.claimed_round_score (Weevy.build_capability_registry ["data_analyzer"])
        (fun _ => 0) "data_analyzer" = 11 ∧
    (10 : ℤ) ≠ 11 := by
  have hc : Weevy.build_capability_registry ["data_analyzer"] "data_analyzer"
      = some { name := "data_analyzer", description := "Data analysis",
               dependencies := [], execution_time_estimate := 10,
               reliability_score := 92/100, cost_score := 8/10,
               supported_actions := ["analyze", "visualize", "predict"] } := by rfl
  refine ⟨?_, ?_, by decide⟩
  · rw [Weevy.calculate_tool_priorities, hc]
    dsimp only
    rw [Weevy.pyTrunc_eq_floor _ (by norm_num), Weevy.pyTrunc_eq_floor _ (by norm_num),
      Weevy.pyTrunc_eq_floor _ (by norm_num)]
    norm_num
  · rw [Weevy.claimed_round_score, hc]
    dsimp only
    norm_num [round_eq]

namespace Weevy

/-- The truncated per-tool base score of the amended claim: the three
`int()`-truncated terms of `_calculate_tool_priorities` (the `2 × in-degree`
term of a ready tool being zero). -/
def truncScore (caps : String → Option ToolCapability) (t : String) : ℤ :=
  match caps t with
  | some c =>
      pyTrunc ((1 - c.reliability_score) * 10) + pyTrunc (c.cost_score * 10)
        + pyTrunc (c.execution_time_estimate / 5)
  | none => 0

/-- The embedded priority is the truncated base score plus twice the
tool's current in-degree. -/
theorem calculate_tool_priorities_eq (caps : String → Option ToolCapability)
    (tools : List String) (d : String → ℤ) (t : String) :
    calculate_tool_priorities caps tools d t = truncScore caps t + 2 * d t := rfl

/-- Observer of the orchestrator's topological-sort loop: the same
iterations as `toolKahnLoop`, emitting at each pop the queue at that moment
together with the popped `(priority, tool)` entry instead of accumulating
the order. -/
def toolKahnPops (caps : String → Option ToolCapability) (tools : List String)
    (deps : String → List String) :
    Nat → List (ℤ × String) → (String → ℤ) →
      List (List (ℤ × String) × (ℤ × String))
  | 0, _, _ => []
  | _ + 1, [], _ => []
  | fuel + 1, entry :: rest, d =>
      let cur := entry.2
      let st := tools.foldl
        (fun (st : (String → ℤ) × List (ℤ × String)) t =>
          if cur ∈ deps t then
            let d2 := updZ st.1 t (st.1 t - 1)
            if d2 t = 0 then
              (d2, sortPairs (st.2 ++ [(calculate_tool_priorities caps tools d2 t, t)]))
            else (d2, st.2)
          else st)
        (d, rest)
      (entry :: rest, entry) :: toolKahnPops caps tools deps fuel st.2 st.1

/-- The pop events of the very run `calculate_execution_order_tools`
performs: same seed queue, in-degree map and fuel. -/
def toolSortPops (caps : String → Option ToolCapability) (tools : List String)
    (deps : String → List String) :
    List (List (ℤ × String) × (ℤ × String)) :=
  let d0 := init_tool_in_degree tools deps
  let seed := sortPairs ((tools.filter (fun t => d0 t = 0)).map
    (fun t => (calculate_tool_priorities caps tools d0 t, t)))
  toolKahnPops caps tools deps (tools.length * tools.length + tools.length + 1)
    seed d0

/-- Insertion into a `pairLE`-sorted list keeps it sorted. -/
theorem insertPair_sorted (x : ℤ × String) :
    ∀ s, List.Pairwise (fun a b => pairLE a b = true) s →
      List.Pairwise (fun a b => pairLE a b = true) (insertPair x s) := by
  intro s
  induction s with
  | nil =>
      intro _
      simp [insertPair]
  | cons y rest ih =>
      intro hs
      rw [List.pairwise_cons] at hs
      obtain ⟨hy, hrest⟩ := hs
      simp only [insertPair]
      by_cases h : pairLE x y = true
      · rw [if_pos h]
        refine List.pairwise_cons.2 ⟨?_, List.pairwise_cons.2 ⟨hy, hrest⟩⟩
        intro b hb
        rcases List.mem_cons.1 hb with hb | hb
        · rw [hb]
          exact h
        · exact pairLE_trans x y b h (hy b hb)
      · rw [if_neg h]
        have hyx : pairLE y x = true := by
          rcases pairLE_total x y with h2 | h2
          · exact absurd h2 h
          · exact h2
        refine List.pairwise_cons.2 ⟨?_, ih hrest⟩
        intro b hb
        rcases (mem_insertPair x b rest).1 hb with hb | hb
        · rw [hb]
          exact hyx
        · exact hy b hb

/-- `sortPairs` produces a `pairLE`-sorted list. -/
theorem sortPairs_sorted :
    ∀ l, List.Pairwise (fun a b => pairLE a b = true) (sortPairs l) := by
  intro l
  induction l with
  | nil => simp [sortPairs]
  | cons a l ih => exact insertPair_sorted a (sortPairs l) ih

/-- The decrement-and-enqueue fold of one sort iteration keeps the queue
sorted, and keeps every queue entry's recorded priority equal to its tool's
truncated base score (each enqueued tool has in-degree zero at that
moment). -/
theorem toolFold_sorted_wf (caps : String → Option ToolCapability)
    (tools : List String) (deps : String → List String) (cur : String) :
    ∀ (ts : List String) (d : String → ℤ) (q : List (ℤ × String)),
      List.Pairwise (fun a b => pairLE a b = true) q →
      (∀ p ∈ q, p.1 = truncScore caps p.2) →
      List.Pairwise (fun a b => pairLE a b = true)
        ((ts.foldl
          (fun (st : (String → ℤ) × List (ℤ × String)) t =>
            if cur ∈ deps t then
              let d2 := updZ st.1 t (st.1 t - 1)
              if d2 t = 0 then
                (d2, sortPairs (st.2 ++ [(calculate_tool_priorities caps tools d2 t, t)]))
              else (d2, st.2)
            else st)
          (d, q)).2) ∧
      (∀ p ∈ (ts.foldl
          (fun (st : (String → ℤ) × List (ℤ × String)) t =>
            if cur ∈ deps t then
              let d2 := updZ st.1 t (st.1 t - 1)
              if d2 t = 0 then
                (d2, sortPairs (st.2 ++ [(calculate_tool_priorities caps tools d2 t, t)]))
              else (d2, st.2)
            else st)
          (d, q)).2, p.1 = truncScore caps p.2) := by
  intro ts
  induction ts with
  | nil =>
      intro d q hs hw
      exact ⟨hs, hw⟩
  | cons t ts ih =>
      intro d q hs hw
      by_cases hc : cur ∈ deps t
      · have hupdt : updZ d t (d t - 1) t = d t - 1 := by simp [updZ]
        by_cases hz : d t - 1 = 0
        · have hred : ((t :: ts).foldl
              (fun (st : (String → ℤ) × List (ℤ × String)) t =>
                if cur ∈ deps t then
                  let d2 := updZ st.1 t (st.1 t - 1)
                  if d2 t = 0 then
                    (d2, sortPairs (st.2 ++ [(calculate_tool_priorities caps tools d2 t, t)]))
                  else (d2, st.2)
                else st)
              (d, q))
              = (ts.foldl
                (fun (st : (String → ℤ) × List (ℤ × String)) t =>
                  if cur ∈ deps t then
                    let d2 := updZ st.1 t (st.1 t - 1)
                    if d2 t = 0 then
                      (d2, sortPairs (st.2 ++ [(calculate_tool_priorities caps tools d2 t, t)]))
                    else (d2, st.2)
                  else st)
                (updZ d t (d t - 1),
                  sortPairs (q ++ [(calculate_tool_priorities caps tools
                    (updZ d t (d t - 1)) t, t)]))) := by
            simp only [List.foldl_cons]
            simp [hc, updZ, hz]
          rw [hred]
          refine ih _ _ (sortPairs_sorted _) ?_
          intro p hp
          rcases List.mem_append.1 ((mem_sortPairs p _).1 hp) with hp2 | hp2
          · exact hw p hp2
          · have hp3 : p = (calculate_tool_priorities caps tools
                (updZ d t (d t - 1)) t, t) := by simpa using hp2
            rw [hp3]
            show calculate_tool_priorities caps tools (updZ d t (d t - 1)) t
              = truncScore caps t
            rw [calculate_tool_priorities_eq, hupdt, hz]
            ring
        · have hred : ((t :: ts).foldl
              (fun (st : (String → ℤ) × List (ℤ × String)) t =>
                if cur ∈ deps t then
                  let d2 := updZ st.1 t (st.1 t - 1)
                  if d2 t = 0 then
                    (d2, sortPairs (st.2 ++ [(calculate_tool_priorities caps tools d2 t, t)]))
                  else (d2, st.2)
                else st)
              (d, q))
              = (ts.foldl
                (fun (st : (String → ℤ) × List (ℤ × String)) t =>
                  if cur ∈ deps t then
                    let d2 := updZ st.1 t (st.1 t - 1)
                    if d2 t = 0 then
                      (d2, sortPairs (st.2 ++ [(calculate_tool_priorities caps tools d2 t, t)]))
                    else (d2, st.2)
                  else st)
                (updZ d t (d t - 1), q)) := by
            simp only [List.foldl_cons]
            simp [hc, updZ, hz]
          rw [hred]
          exact ih _ _ hs hw
      · have hred : ((t :: ts).foldl
            (fun (st : (String → ℤ) × List (ℤ × String)) t =>
              if cur ∈ deps t then
                let d2 := updZ st.1 t (st.1 t - 1)
                if d2 t = 0 then
                  (d2, sortPairs (st.2 ++ [(calculate_tool_priorities caps tools d2 t, t)]))
                else (d2, st.2)
              else st)
            (d, q))
            = (ts.foldl
              (fun (st : (String → ℤ) × List (ℤ × String)) t =>
                if cur ∈ deps t then
                  let d2 := updZ st.1 t (st.1 t - 1)
                  if d2 t = 0 then
                    (d2, sortPairs (st.2 ++ [(calculate_tool_priorities caps tools d2 t, t)]))
                  else (d2, st.2)
                else st)
              (d, q)) := by
          simp only [List.foldl_cons]
          simp [hc]
        rw [hred]
        exact ih _ _ hs hw

/-- At every pop of the sort loop started from a sorted, well-formed queue:
the popped entry belongs to the queue at that moment, it is `pairLE`-minimal
among all its entries, and every entry records exactly the truncated base
score of its tool. -/
theorem toolKahnPops_spec (caps : String → Option ToolCapability)
    (tools : List String) (deps : String → List String) :
    ∀ (fuel : Nat) (q : List (ℤ × String)) (d : String → ℤ),
      List.Pairwise (fun a b => pairLE a b = true) q →
      (∀ p ∈ q, p.1 = truncScore caps p.2) →
      ∀ step ∈ toolKahnPops caps tools deps fuel q d,
        step.2 ∈ step.1 ∧ (∀ x ∈ step.1, pairLE step.2 x = true) ∧
        ∀ p ∈ step.1, p.1 = truncScore caps p.2 := by
  intro fuel
  induction fuel with
  | zero =>
      intro q d _ _ step hstep
      exact absurd hstep (by simp [toolKahnPops])
  | succ fuel ih =>
      intro q d hs hw step hstep
      cases q with
      | nil => exact absurd hstep (by simp [toolKahnPops])
      | cons e rest =>
          simp only [toolKahnPops] at hstep
          rcases List.mem_cons.1 hstep with hstep | hstep
          · subst hstep
            refine ⟨by simp, ?_, hw⟩
            intro x hx
            rcases List.mem_cons.1 hx with hx | hx
            · rw [hx]
              exact pairLE_refl e
            · exact (List.pairwise_cons.1 hs).1 x hx
          · have hrest_s : List.Pairwise (fun a b => pairLE a b = true) rest :=
              (List.pairwise_cons.1 hs).2
            have hrest_w : ∀ p ∈ rest, p.1 = truncScore caps p.2 :=
              fun p hp => hw p (by simp [hp])
            obtain ⟨hsorted2, hwf2⟩ :=
              toolFold_sorted_wf caps tools deps e.2 tools d rest hrest_s hrest_w
            exact ih _ _ hsorted2 hwf2 step hstep

/-- The order emitted by the sort loop is exactly the sequence of popped
tools. -/
theorem toolKahnLoop_eq_pops (caps : String → Option ToolCapability)
    (tools : List String) (deps : String → List String) :
    ∀ (fuel : Nat) (q : List (ℤ × String)) (d : String → ℤ)
      (order : List String),
      toolKahnLoop caps tools deps fuel q d order
        = order ++ (toolKahnPops caps tools deps fuel q d).map (fun s => s.2.2) := by
  intro fuel
  induction fuel with
  | zero =>
      intro q d order
      simp [toolKahnLoop, toolKahnPops]
  | succ fuel ih =>
      intro q d order
      cases q with
      | nil => simp [toolKahnLoop, toolKahnPops]
      | cons e rest =>
          simp only [toolKahnLoop, toolKahnPops, List.map_cons]
          rw [ih, List.append_assoc]
          rfl

end Weevy

/-- C7 as amended: the scores the tie-break uses are computed with `int()`
truncation (truncation toward zero, equal to the floor on these nonnegative
terms), not `round`: a tool with a capability scores
trunc((1 − reliability)×10) + trunc(cost×10) + trunc(time/5) + 2×in-degree.
This tie-break governs every scheduling decision of the sort: the first
tool scheduled is an initially ready (zero in-degree) tool with a minimal
(score, name) pair among the ready tools; the emitted execution order is
exactly the sequence of tools popped from the ready queue; and at every pop
throughout the sort the scheduled entry is a member of, and
`pairLE`-minimal in, the ready queue of that moment — whose entries each
record exactly the truncated base score of their tool (their remaining
in-degree being zero).  So at each step the lowest-scoring ready tool runs
first, the tool name breaking score ties. -/
theorem C7_amended_lowest_truncated_score_first
    (avail tools : List String) (deps : String → List String) (t0 : String)
    (hhead : (Weevy.calculate_execution_order_tools
        (Weevy.build_capability_registry avail) tools deps).head? = some t0) :
    t0 ∈ tools.filter
        (fun t => Weevy.init_tool_in_degree tools deps t = 0) ∧
    (∀ u ∈ tools.filter (fun t => Weevy.init_tool_in_degree tools deps t = 0),
      Weevy.pairLE
        (Weevy.calculate_tool_priorities (Weevy.build_capability_registry avail)
          tools (Weevy.init_tool_in_degree tools deps) t0, t0)
        (Weevy.calculate_tool_priorities (Weevy.build_capability_registry avail)
          tools (Weevy.init_tool_in_degree tools deps) u, u) = true) ∧
    (∀ t c, Weevy.build_capability_registry avail t = some c →
      Weevy.calculate_tool_priorities (Weevy.build_capability_registry avail)
          tools (Weevy.init_tool_in_degree tools deps) t
        = Weevy.pyTrunc ((1 - c.reliability_score) * 10)
          + Weevy.pyTrunc (c.cost_score * 10)
          + Weevy.pyTrunc (c.execution_time_estimate / 5)
          + 2 * Weevy.init_tool_in_degree tools deps t) ∧
    (Weevy.calculate_execution_order_tools (Weevy.build_capability_registry avail)
        tools deps
      = (Weevy.toolSortPops (Weevy.build_capability_registry avail) tools deps).map
          (fun s => s.2.2)) ∧
    (∀ step ∈ Weevy.toolSortPops (Weevy.build_capability_registry avail) tools deps,
      step.2 ∈ step.1 ∧ (∀ x ∈ step.1, Weevy.pairLE step.2 x = true) ∧
      ∀ p ∈ step.1,
        p.1 = Weevy.truncScore (Weevy.build_capability_registry avail) p.2) := by
  have hold : t0 ∈ tools.filter
        (fun t => Weevy.init_tool_in_degree tools deps t = 0) ∧
      (∀ u ∈ tools.filter (fun t => Weevy.init_tool_in_degree tools deps t = 0),
        Weevy.pairLE
          (Weevy.calculate_tool_priorities (Weevy.build_capability_registry avail)
            tools (Weevy.init_tool_in_degree tools deps) t0, t0)
          (Weevy.calculate_tool_priorities (Weevy.build_capability_registry avail)
            tools (Weevy.init_tool_in_degree tools deps) u, u) = true) ∧
      (∀ t c, Weevy.build_capability_registry avail t = some c →
        Weevy.calculate_tool_priorities (Weevy.build_capability_registry avail)
            tools (Weevy.init_tool_in_degree tools deps) t
          = Weevy.pyTrunc ((1 - c.reliability_score) * 10)
            + Weevy.pyTrunc (c.cost_score * 10)
            + Weevy.pyTrunc (c.execution_time_estimate / 5)
            + 2 * Weevy.init_tool_in_degree tools deps t) := by
      have hform : ∀ t c, Weevy.build_capability_registry avail t = some c →
          Weevy.calculate_tool_priorities (Weevy.build_capability_registry avail)
              tools (Weevy.init_tool_in_degree tools deps) t
            = Weevy.pyTrunc ((1 - c.reliability_score) * 10)
              + Weevy.pyTrunc (c.cost_score * 10)
              + Weevy.pyTrunc (c.execution_time_estimate / 5)
              + 2 * Weevy.init_tool_in_degree tools deps t := by
        intro t c hc
        rw [Weevy.calculate_tool_priorities, hc]
      simp only [Weevy.calculate_execution_order_tools] at hhead
      cases hs : Weevy.sortPairs
          ((tools.filter (fun t => Weevy.init_tool_in_degree tools deps t = 0)).map
            (fun t => (Weevy.calculate_tool_priorities
              (Weevy.build_capability_registry avail) tools
              (Weevy.init_tool_in_degree tools deps) t, t))) with
      | nil =>
          rw [hs] at hhead
          simp [Weevy.toolKahnLoop] at hhead
      | cons p ps =>
          rw [hs] at hhead
          simp only [Weevy.toolKahnLoop] at hhead
          obtain ⟨r2, hr⟩ := Weevy.toolKahnLoop_prefix
            (Weevy.build_capability_registry avail) tools deps
            (tools.length * tools.length + tools.length) _ _ ([] ++ [p.2])
          rw [hr] at hhead
          simp only [List.nil_append, List.cons_append, List.head?] at hhead
          have ht0 : p.2 = t0 := by
            simpa using hhead
          have hpmem : p ∈
              (tools.filter (fun t => Weevy.init_tool_in_degree tools deps t = 0)).map
                (fun t => (Weevy.calculate_tool_priorities
                  (Weevy.build_capability_registry avail) tools
                  (Weevy.init_tool_in_degree tools deps) t, t)) := by
            rw [← Weevy.mem_sortPairs, hs]
            exact List.mem_cons_self p ps
          obtain ⟨u, hu, hup⟩ := List.mem_map.1 hpmem
          have hut0 : u = t0 := by
            rw [← ht0, ← hup]
          subst hut0
          have hp : p = (Weevy.calculate_tool_priorities
              (Weevy.build_capability_registry avail) tools
              (Weevy.init_tool_in_degree tools deps) u, u) := hup.symm
          refine ⟨hu, ?_, hform⟩
          intro w hw
          have hwmem : (Weevy.calculate_tool_priorities
              (Weevy.build_capability_registry avail) tools
              (Weevy.init_tool_in_degree tools deps) w, w) ∈
              (tools.filter (fun t => Weevy.init_tool_in_degree tools deps t = 0)).map
                (fun t => (Weevy.calculate_tool_priorities
                  (Weevy.build_capability_registry avail) tools
                  (Weevy.init_tool_in_degree tools deps) t, t)) :=
            List.mem_map.2 ⟨w, hw, rfl⟩
          have := Weevy.sortPairs_head_min _ p ps hs _ hwmem
          rw [hp] at this
          exact this
  have hseedwf : ∀ p ∈ Weevy.sortPairs
      ((tools.filter (fun t => Weevy.init_tool_in_degree tools deps t = 0)).map
        (fun t => (Weevy.calculate_tool_priorities
          (Weevy.build_capability_registry avail) tools
          (Weevy.init_tool_in_degree tools deps) t, t))),
      p.1 = Weevy.truncScore (Weevy.build_capability_registry avail) p.2 := by
    intro p hp
    obtain ⟨u, hu, hup⟩ := List.mem_map.1 ((Weevy.mem_sortPairs p _).1 hp)
    have hu0 : Weevy.init_tool_in_degree tools deps u = 0 := by
      have := List.of_mem_filter hu
      simpa using this
    rw [← hup]
    show Weevy.calculate_tool_priorities (Weevy.build_capability_registry avail)
        tools (Weevy.init_tool_in_degree tools deps) u
      = Weevy.truncScore (Weevy.build_capability_registry avail) u
    rw [Weevy.calculate_tool_priorities_eq, hu0]
    ring
  refine ⟨hold.1, hold.2.1, hold.2.2, ?_, ?_⟩
  · rw [show Weevy.calculate_execution_order_tools
        (Weevy.build_capability_registry avail) tools deps
        = Weevy.toolKahnLoop (Weevy.build_capability_registry avail) tools deps
          (tools.length * tools.length + tools.length + 1)
          (Weevy.sortPairs
            ((tools.filter (fun t => Weevy.init_tool_in_degree tools deps t = 0)).map
              (fun t => (Weevy.calculate_tool_priorities
                (Weevy.build_capability_registry avail) tools
                (Weevy.init_tool_in_degree tools deps) t, t))))
          (Weevy.init_tool_in_degree tools deps) [] from rfl]
    rw [Weevy.toolKahnLoop_eq_pops]
    simp only [List.nil_append]
    rfl
  · intro step hstep
    exact Weevy.toolKahnPops_spec (Weevy.build_capability_registry avail) tools deps
      (tools.length * tools.length + tools.length + 1) _ _
      (Weevy.sortPairs_sorted _) hseedwf step hstep

/-- Witness for C7's amended statement: among the two ready tools
data_analyzer (truncated score 10) and calendar (truncated score 1), the
sort schedules calendar first, and the pair (score, name) of calendar is
minimal among the ready tools. -/
theorem C7_amended_lowest_truncated_score_first_witness :
    "calendar" ∈ ["data_analyzer", "calendar"].filter
      (fun t => Weevy.init_tool_in_degree ["data_analyzer", "calendar"]
        (fun _ => []) t = 0) ∧
    ∀ u ∈ ["data_analyzer", "calendar"].filter
        (fun t => Weevy.init_tool_in_degree ["data_analyzer", "calendar"]
          (fun _ => []) t = 0),
      Weevy.pairLE
        (Weevy.calculate_tool_priorities
          (Weevy.build_capability_registry ["data_analyzer", "calendar"])
          ["data_analyzer", "calendar"]
          (Weevy.init_tool_in_degree ["data_analyzer", "calendar"] (fun _ => []))
          "calendar", "calendar")
        (Weevy.calculate_tool_priorities
          (Weevy.build_capability_registry ["data_analyzer", "calendar"])
          ["data_analyzer", "calendar"]
          (Weevy.init_tool_in_degree ["data_analyzer", "calendar"] (fun _ => []))
          u, u) = true := by
  have hda : Weevy.calculate_tool_priorities
      (Weevy.build_capability_registry ["data_analyzer", "calendar"])
      ["data_analyzer", "calendar"]
      (Weevy.init_tool_in_degree ["data_analyzer", "calendar"] (fun _ => []))
      "data_analyzer" = 10 := by
    have hc : Weevy.build_capability_registry ["data_analyzer", "calendar"]
        "data_analyzer"
        = some { name := "data_analyzer", description := "Data analysis",
                 dependencies := [], execution_time_estimate := 10,
                 reliability_score := 92/100, cost_score := 8/10,
                 supported_actions := ["analyze", "visualize", "predict"] } := by rfl
    rw [Weevy.calculate_tool_priorities, hc]
    dsimp only
    rw [Weevy.pyTrunc_eq_floor _ (by norm_num), Weevy.pyTrunc_eq_floor _ (by norm_num),
      Weevy.pyTrunc_eq_floor _ (by norm_num)]
    rw [show Weevy.init_tool_in_degree ["data_analyzer", "calendar"] (fun _ => [])
        "data_analyzer" = 0 from rfl]
    norm_num
  have hcal : Weevy.calculate_tool_priorities
      (Weevy.build_capability_registry ["data_analyzer", "calendar"])
      ["data_analyzer", "calendar"]
      (Weevy.init_tool_in_degree ["data_analyzer", "calendar"] (fun _ => []))
      "calendar" = 1 := by
    have hc : Weevy.build_capability_registry ["data_analyzer", "calendar"]
        "calendar"
        = some { name := "calendar", description := "Calendar management",
                 dependencies := [], execution_time_estimate := 5/2,
                 reliability_score := 96/100, cost_score := 15/100,
                 supported_actions := ["create_event", "find_free_slots",
                   "list_events"] } := by rfl
    rw [Weevy.calculate_tool_priorities, hc]
    dsimp only
    rw [Weevy.pyTrunc_eq_floor _ (by norm_num), Weevy.pyTrunc_eq_floor _ (by norm_num),
      Weevy.pyTrunc_eq_floor _ (by norm_num)]
    rw [show Weevy.init_tool_in_degree ["data_analyzer", "calendar"] (fun _ => [])
        "calendar" = 0 from rfl]
    norm_num
  have hhead : (Weevy.calculate_execution_order_tools
      (Weevy.build_capability_registry ["data_analyzer", "calendar"])
      ["data_analyzer", "calendar"] (fun _ => [])).head? = some "calendar" := by
    rw [show Weevy.calculate_execution_order_tools
        (Weevy.build_capability_registry ["data_analyzer", "calendar"])
        ["data_analyzer", "calendar"] (fun _ => [])
        = Weevy.toolKahnLoop
          (Weevy.build_capability_registry ["data_analyzer", "calendar"])
          ["data_analyzer", "calendar"] (fun _ => []) 7
          (Weevy.sortPairs (["data_analyzer", "calendar"].map
            (fun t => (Weevy.calculate_tool_priorities
              (Weevy.build_capability_registry ["data_analyzer", "calendar"])
              ["data_analyzer", "calendar"]
              (Weevy.init_tool_in_degree ["data_analyzer", "calendar"]
                (fun _ => [])) t, t))))
          (Weevy.init_tool_in_degree ["data_analyzer", "calendar"] (fun _ => []))
          [] from rfl]
    rw [List.map_cons, List.map_cons, List.map_nil, hda, hcal]
    rfl
  have h := C7_amended_lowest_truncated_score_first ["data_analyzer", "calendar"]
    ["data_analyzer", "calendar"] (fun _ => []) "calendar" hhead
  exact ⟨h.1, h.2.1⟩

namespace Weevy

/-- No capability the registry can return declares explicit dependencies
(the catalog never sets the field; the fallback leaves the default `[]`). -/
theorem registry_deps_empty (avail : List String) (n : String)
    (c : ToolCapability) (hc : build_capability_registry avail n = some c) :
    c.dependencies = [] := by
  unfold build_capability_registry at hc
  by_cases h : n ∈ avail
  · rw [if_pos h] at hc
    have h2 := Option.some.inj hc
    subst h2
    unfold tool_definitions basic_capability
    split_ifs <;> rfl
  · rw [if_neg h] at hc
    exact absurd hc (by simp)

/-- Every inferable dependency target is web_search or data_analyzer. -/
theorem infer_targets (t : String) (tools : List String)
    (ctx : List (String × PyVal)) (d : String)
    (hd : d ∈ infer_tool_dependencies t tools ctx) :
    d = "web_search" ∨ d = "data_analyzer" := by
  unfold infer_tool_dependencies at hd
  split_ifs at hd <;> simp_all

/-- web_search never has dependencies of its own (it matches no inference
rule). -/
theorem infer_web_search_empty (tools : List String)
    (ctx : List (String × PyVal)) :
    infer_tool_dependencies "web_search" tools ctx = [] := rfl

/-- data_analyzer never has dependencies of its own. -/
theorem infer_data_analyzer_empty (tools : List String)
    (ctx : List (String × PyVal)) :
    infer_tool_dependencies "data_analyzer" tools ctx = [] := rfl

/-- The dependency graphs built from this capability registry are two-level:
every dependency of a selected tool has itself no dependencies. -/
theorem build_deps_two_level (avail tools : List String)
    (ctx : List (String × PyVal)) (t d : String)
    (hd : d ∈ build_tool_dependencies (build_capability_registry avail)
      tools ctx t) :
    build_tool_dependencies (build_capability_registry avail) tools ctx d
      = [] := by
  unfold build_tool_dependencies at hd
  by_cases ht : t ∈ tools
  case neg =>
    rw [if_neg ht] at hd
    exact absurd hd (by simp)
  rw [if_pos ht] at hd
  cases hc : build_capability_registry avail t with
  | none =>
      rw [hc] at hd
      exact absurd hd (by simp)
  | some c =>
      rw [hc] at hd
      rw [List.mem_dedup, List.mem_filter] at hd
      obtain ⟨hmem, _⟩ := hd
      rw [registry_deps_empty avail t c hc, List.nil_append] at hmem
      have htarget := infer_targets t tools ctx d hmem
      unfold build_tool_dependencies
      by_cases h2 : d ∈ tools
      · rw [if_pos h2]
        cases hc2 : build_capability_registry avail d with
        | none => rfl
        | some c2 =>
            dsimp only
            rw [registry_deps_empty avail d c2 hc2]
            rcases htarget with h3 | h3 <;> rw [h3] <;>
              simp [infer_web_search_empty, infer_data_analyzer_empty]
      · rw [if_neg h2]

/-- Every member of a produced wave was among the remaining tools. -/
theorem ipg_loop_member (deps : String → List String) (maxPar : Nat) :
    ∀ (fuel : Nat) (rem comp : List String) (g : List String) (x : String),
      g ∈ identify_parallel_groups_loop deps maxPar fuel rem comp →
      x ∈ g → x ∈ rem := by
  intro fuel
  induction fuel with
  | zero =>
      intro rem comp g x hg _
      exact absurd hg (by simp [identify_parallel_groups_loop])
  | succ fuel ih =>
      intro rem comp g x hg hx
      cases rem with
      | nil => exact absurd hg (by simp [identify_parallel_groups_loop])
      | cons r0 rest =>
          simp only [identify_parallel_groups_loop] at hg
          rcases List.mem_cons.1 hg with hg | hg
          · subst hg
            have hx2 := List.take_subset _ _ hx
            by_cases hready : ((r0 :: rest).filter
                (fun t => (deps t).all (fun dep => decide (dep ∈ comp)))).isEmpty
            · rw [if_pos hready] at hx2
              exact List.mem_cons.2 (Or.inl (by simpa using hx2))
            · rw [if_neg hready] at hx2
              exact List.mem_of_mem_filter hx2
          · have := ih _ _ g x hg hx
            exact List.mem_of_mem_filter this

/-- Waves respect dependencies: under a two-level dependency map, a tool is
always placed in a strictly later wave than each of its dependencies. -/
theorem ipg_wave_order (deps : String → List String) (maxPar : Nat)
    (htwo : ∀ t d, d ∈ deps t → deps d = []) :
    ∀ (fuel : Nat) (rem comp : List String),
      (∀ x ∈ comp, x ∉ rem) →
      ∀ (i j : Nat) (gA gB : List String) (A B : String), A ∈ deps B →
        (identify_parallel_groups_loop deps maxPar fuel rem comp).get? i
          = some gB → B ∈ gB →
        (identify_parallel_groups_loop deps maxPar fuel rem comp).get? j
          = some gA → A ∈ gA →
        j < i := by
  intro fuel
  induction fuel with
  | zero =>
      intro rem comp _ i j gA gB A B _ hgB
      rw [show identify_parallel_groups_loop deps maxPar 0 rem comp = []
        from rfl] at hgB
      exact absurd hgB (by simp)
  | succ fuel ih =>
      intro rem comp hdisj i j gA gB A B hAB hgB hBin hgA hAin
      cases rem with
      | nil =>
          rw [show identify_parallel_groups_loop deps maxPar (fuel + 1) [] comp
            = [] from rfl] at hgB
          exact absurd hgB (by simp)
      | cons r0 rest =>
          have hdepA : deps A = [] := htwo B A hAB
          simp only [identify_parallel_groups_loop] at hgB hgA
          -- the produced head wave and tail loop
          cases i with
          | zero =>
              exfalso
              have hgBeq : (if ((r0 :: rest).filter (fun t =>
                    (deps t).all (fun dep => decide (dep ∈ comp)))).isEmpty
                  then [r0]
                  else (r0 :: rest).filter (fun t =>
                    (deps t).all (fun dep => decide (dep ∈ comp)))).take maxPar
                  = gB := by
                simpa using hgB
              have hArem : A ∈ r0 :: rest := by
                cases j with
                | zero =>
                    have hgAeq : (if ((r0 :: rest).filter (fun t =>
                          (deps t).all (fun dep => decide (dep ∈ comp)))).isEmpty
                        then [r0]
                        else (r0 :: rest).filter (fun t =>
                          (deps t).all (fun dep => decide (dep ∈ comp)))).take maxPar
                        = gA := by
                      simpa using hgA
                    rw [← hgAeq] at hAin
                    have hx2 := List.take_subset _ _ hAin
                    by_cases hready : ((r0 :: rest).filter (fun t =>
                        (deps t).all (fun dep => decide (dep ∈ comp)))).isEmpty
                    · rw [if_pos hready] at hx2
                      exact List.mem_cons.2 (Or.inl (by simpa using hx2))
                    · rw [if_neg hready] at hx2
                      exact List.mem_of_mem_filter hx2
                | succ j2 =>
                    have hgA2 : (identify_parallel_groups_loop deps maxPar fuel
                        ((r0 :: rest).filter (fun t => t ∉ (if ((r0 :: rest).filter
                          (fun t => (deps t).all (fun dep => decide (dep ∈ comp)))).isEmpty
                          then [r0]
                          else (r0 :: rest).filter (fun t =>
                            (deps t).all (fun dep => decide (dep ∈ comp)))).take maxPar))
                        (comp ++ (if ((r0 :: rest).filter (fun t =>
                          (deps t).all (fun dep => decide (dep ∈ comp)))).isEmpty
                          then [r0]
                          else (r0 :: rest).filter (fun t =>
                            (deps t).all (fun dep => decide (dep ∈ comp)))).take maxPar)).get? j2
                        = some gA := by
                      simpa using hgA
                    have := ipg_loop_member deps maxPar fuel _ _ gA A
                      (List.get?_mem hgA2) hAin
                    exact List.mem_of_mem_filter this
              by_cases hready : ((r0 :: rest).filter (fun t =>
                  (deps t).all (fun dep => decide (dep ∈ comp)))).isEmpty
              · -- forced branch impossible: A itself is ready
                have hAready : A ∈ (r0 :: rest).filter (fun t =>
                    (deps t).all (fun dep => decide (dep ∈ comp))) := by
                  rw [List.mem_filter]
                  exact ⟨hArem, by simp [hdepA]⟩
                rw [List.isEmpty_iff] at hready
                rw [hready] at hAready
                exact absurd hAready (by simp)
              · -- ready wave: B ready means A already completed, yet A remains
                rw [if_neg hready] at hgBeq
                rw [← hgBeq] at hBin
                have hBready := List.take_subset _ _ hBin
                have hBcond := (List.mem_filter.1 hBready).2
                have hAcomp : A ∈ comp := by
                  have := List.all_eq_true.1 hBcond A hAB
                  simpa using this
                exact hdisj A hAcomp hArem
          | succ i2 =>
              cases j with
              | zero => omega
              | succ j2 =>
                  have hgB2 := hgB
                  have hgA2 := hgA
                  simp only [List.get?_cons_succ] at hgB2 hgA2
                  have hdisj2 : ∀ x ∈ comp ++ (if ((r0 :: rest).filter (fun t =>
                      (deps t).all (fun dep => decide (dep ∈ comp)))).isEmpty
                      then [r0]
                      else (r0 :: rest).filter (fun t =>
                        (deps t).all (fun dep => decide (dep ∈ comp)))).take maxPar,
                      x ∉ (r0 :: rest).filter (fun t => t ∉ (if ((r0 :: rest).filter
                        (fun t => (deps t).all (fun dep => decide (dep ∈ comp)))).isEmpty
                        then [r0]
                        else (r0 :: rest).filter (fun t =>
                          (deps t).all (fun dep => decide (dep ∈ comp)))).take maxPar) := by
                    intro x hx hxin
                    have hxin2 := List.mem_filter.1 hxin
                    rcases List.mem_append.1 hx with hx | hx
                    · exact hdisj x hx (List.mem_of_mem_filter hxin)
                    · have : x ∉ (if ((r0 :: rest).filter (fun t =>
                          (deps t).all (fun dep => decide (dep ∈ comp)))).isEmpty
                          then [r0]
                          else (r0 :: rest).filter (fun t =>
                            (deps t).all (fun dep => decide (dep ∈ comp)))).take maxPar := by
                        simpa using hxin2.2
                      exact this hx
                  have := ih _ _ hdisj2 i2 j2 gA gB A B hAB hgB2 hBin hgA2 hAin
                  omega

end Weevy

/-- C4: in every plan built by `create_execution_plan`, whenever tool A is
recorded in tool B's dependency set (declared in the capability catalog or
inferred from context, filtered to selected tools), the wave of
`parallel_groups` containing A has a strictly smaller index than the wave
containing B; in particular tools {web_search, email} with context flag
`search_before_email = true` yield `execution_order = [web_search, email]`
and `parallel_groups = [[web_search], [email]]`. -/
theorem C4_dependent_tool_in_strictly_later_wave :
    (∀ (availableTools selectedTools : List String)
       (ctx : List (String × Weevy.PyVal)) (plan : Weevy.ToolExecutionPlan)
       (A B : String) (i j : Nat) (gA gB : List String),
      Weevy.create_execution_plan availableTools selectedTools ctx = .ok plan →
      A ∈ plan.dependencies B →
      plan.parallel_groups.get? i = some gB → B ∈ gB →
      plan.parallel_groups.get? j = some gA → A ∈ gA →
      j < i) ∧
    (Weevy.create_execution_plan ["web_search", "email"] ["web_search", "email"]
        [("search_before_email", .pyBool true)]).map
          (fun p => (p.execution_order, p.parallel_groups))
      = .ok (["web_search", "email"], [["web_search"], ["email"]]) := by
  constructor
  · intro avail sel ctx plan A B i j gA gB hplan hdep hgB hBin hgA hAin
    unfold Weevy.create_execution_plan at hplan
    by_cases hv : (sel.filter
        (fun t => (Weevy.build_capability_registry avail t).isSome)).isEmpty
    · rw [if_pos hv] at hplan
      exact absurd hplan (by simp)
    · rw [if_neg hv] at hplan
      have hp := Except.ok.inj hplan
      subst hp
      dsimp only at hdep hgB hBin hgA hAin
      rw [show Weevy.identify_parallel_groups true 5
          (Weevy.calculate_execution_order_tools
            (Weevy.build_capability_registry avail)
            (sel.filter (fun t => (Weevy.build_capability_registry avail t).isSome))
            (Weevy.build_tool_dependencies (Weevy.build_capability_registry avail)
              (sel.filter (fun t => (Weevy.build_capability_registry avail t).isSome))
              ctx))
          (Weevy.build_tool_dependencies (Weevy.build_capability_registry avail)
            (sel.filter (fun t => (Weevy.build_capability_registry avail t).isSome))
            ctx)
          = Weevy.identify_parallel_groups_loop
            (Weevy.build_tool_dependencies (Weevy.build_capability_registry avail)
              (sel.filter (fun t => (Weevy.build_capability_registry avail t).isSome))
              ctx) 5
            ((Weevy.calculate_execution_order_tools
              (Weevy.build_capability_registry avail)
              (sel.filter (fun t => (Weevy.build_capability_registry avail t).isSome))
              (Weevy.build_tool_dependencies (Weevy.build_capability_registry avail)
                (sel.filter (fun t => (Weevy.build_capability_registry avail t).isSome))
                ctx)).length + 1)
            (Weevy.calculate_execution_order_tools
              (Weevy.build_capability_registry avail)
              (sel.filter (fun t => (Weevy.build_capability_registry avail t).isSome))
              (Weevy.build_tool_dependencies (Weevy.build_capability_registry avail)
                (sel.filter (fun t => (Weevy.build_capability_registry avail t).isSome))
                ctx)) []
          from rfl] at hgB hgA
      exact Weevy.ipg_wave_order _ 5
        (fun t d hd => Weevy.build_deps_two_level avail _ ctx t d hd)
        _ _ [] (by simp) i j gA gB A B hdep hgB hBin hgA hAin
  · rfl

/-- The plan produced in the C4 scenario, extracted for the witness. -/
def c4ScenarioPlan : Weevy.ToolExecutionPlan :=
  (Weevy.create_execution_plan ["web_search", "email"] ["web_search", "email"]
    [("search_before_email", .pyBool true)]).toOption.getD
    ⟨[], [], fun _ => [], [], .medium, 0⟩

/-- Witness for C4: in the scenario-C plan, web_search (a dependency of
email) sits in wave 0 and email in wave 1, and indeed 0 < 1. -/
theorem C4_dependent_tool_in_strictly_later_wave_witness : (0 : Nat) < 1 :=
  (C4_dependent_tool_in_strictly_later_wave).1 ["web_search", "email"]
    ["web_search", "email"] [("search_before_email", .pyBool true)]
    c4ScenarioPlan "web_search" "email" 1 0 ["web_search"] ["email"]
    (by rfl) (by decide) (by rfl) (by decide) (by rfl) (by decide)
